import Mathlib

/-!
Verification of the scheduling core of the Construction Scheduler
(`scheduling.py`): topological ordering (Kahn's algorithm with a cycle
fallback), the two-pass CPM baseline, greedy resource leveling in two
modes, and the project-duration metric.

Python floats are modelled as rationals, Python `dict`s as insertion-ordered
association lists, and operations that can raise `KeyError` return `Option`.
-/

namespace Scheduling

/-- A task record as produced by ingestion (`section`/`subsection` renamed,
`section` being reserved). `duration_hours = none` models Python `None`. -/
structure Task where
  id : String
  name : String
  planned_day : Int
  duration_hours : Option ℚ
  crew_code : Option String
  crew_category : Option String
  sectionLabel : Option String
  subsectionLabel : Option String
  dependencies : List String
deriving Repr, DecidableEq

/-! ### Association lists (Python `dict` with insertion order) -/

/-- Dictionary lookup, `m[k]` as an `Option` (`none` models `KeyError`). -/
def aget {α : Type} : List (String × α) → String → Option α
  | [], _ => none
  | (k', v) :: rest, k => if k' = k then some v else aget rest k

/-- Dictionary assignment `m[k] = v`: update in place, else append. -/
def dset {α : Type} : List (String × α) → String → α → List (String × α)
  | [], k, v => [(k, v)]
  | (k', v') :: rest, k, v => if k' = k then (k, v) :: rest else (k', v') :: dset rest k v

/-- `defaultdict(int)` read. -/
def dgetI (m : List (String × Int)) (k : String) : Int := (aget m k).getD 0

/-- `defaultdict(float)` read. -/
def dgetQ (m : List (String × ℚ)) (k : String) : ℚ := (aget m k).getD 0

/-! ### `topological_order` (scheduling.py lines 4-22) -/

/-- The dict comprehension `{t["id"]: set(t.get("dependencies", []))}`:
insertion-ordered, later duplicate ids overwrite, `set` dedups. -/
def depsOf (tasks : List Task) : List (String × List String) :=
  tasks.foldl (fun m t => dset m t.id t.dependencies.dedup) []

/-- `for t in tasks: indeg[t["id"]] = len(deps[t["id"]])`. -/
def indegOf (tasks : List Task) (deps : List (String × List String)) : List (String × Int) :=
  tasks.foldl (fun m t => dset m t.id (((aget deps t.id).getD []).length : Int)) []

/-- The inner `for v, dv in deps.items()` of Kahn's loop: for every entry
containing the popped id `u`, remove `u`, decrement the in-degree and
enqueue the key when its in-degree reaches zero. -/
def relax (u : String) : List (String × List String) → List (String × Int) → List String →
    List (String × List String) × List (String × Int) × List String
  | [], indeg, q => ([], indeg, q)
  | (v, dv) :: rest, indeg, q =>
    if u ∈ dv then
      let indeg' := dset indeg v (dgetI indeg v - 1)
      let q' := if dgetI indeg' v = 0 then q ++ [v] else q
      let r := relax u rest indeg' q'
      ((v, dv.erase u) :: r.1, r.2)
    else
      let r := relax u rest indeg q
      ((v, dv) :: r.1, r.2)

/-- The `while q` loop of Kahn's algorithm.  The source loop always
terminates (each iteration pops one queue element and every id is enqueued
at most once); the fuel makes the recursion structural, and
`topological_order` supplies enough of it (proved below). -/
def kahnLoop : Nat → List (String × List String) → List (String × Int) → List String →
    List String → List (String × List String) × List (String × Int) × List String
  | _, deps, indeg, [], order => (deps, indeg, order)
  | 0, deps, indeg, _, order => (deps, indeg, order)
  | fuel + 1, deps, indeg, u :: rest, order =>
    let (deps', indeg', q') := relax u deps indeg rest
    kahnLoop fuel deps' indeg' q' (order ++ [u])

/-- Fuel bound for `kahnLoop`: the loop measure `|q| + Σ |deps(v)|`
strictly decreases at every iteration. -/
def kahnFuel (deps : List (String × List String)) (q : List String) : Nat :=
  q.length + (deps.map (fun p => p.2.length)).sum

/-- `topological_order` (scheduling.py lines 4-22): Kahn's algorithm;
tasks whose in-degree never reaches zero are appended afterwards. -/
def topological_order (tasks : List Task) : List String :=
  let deps := depsOf tasks
  let indeg := indegOf tasks deps
  let q0 := (indeg.filter (fun p => p.2 = 0)).map Prod.fst
  let (_, indeg', order) := kahnLoop (kahnFuel deps q0) deps indeg q0 []
  let remaining := (indeg'.filter (fun p => decide (0 < p.2) && !(order.contains p.1))).map Prod.fst
  order ++ remaining

/-! ### `compute_cpm_baseline` (scheduling.py lines 24-56) -/

/-- Entry of the CPM `info` dict; `es`/`ef`/`ls`/`lf` start absent. -/
structure CpmRec where
  duration : ℚ
  es : Option ℚ
  ef : Option ℚ
  ls : Option ℚ
  lf : Option ℚ
deriving Repr, DecidableEq

/-- Python `max(xs, default=d)`. -/
def maxD (xs : List ℚ) (d : ℚ) : ℚ :=
  match xs with
  | [] => d
  | x :: l => l.foldl (fun a b => max a b) x

/-- Python `min(xs) if xs else d`. -/
def minD (xs : List ℚ) (d : ℚ) : ℚ :=
  match xs with
  | [] => d
  | x :: l => l.foldl (fun a b => min a b) x

/-- `{t["id"]: {"duration": float(t["duration_hours"] or 0.0)}}`. -/
def infoInit (tasks : List Task) : List (String × CpmRec) :=
  tasks.foldl (fun m t => dset m t.id ⟨t.duration_hours.getD 0, none, none, none, none⟩) []

/-- One forward-pass step: `es = max(EF of deps)`, `ef = es + duration`.
Reading a dependency whose `ef` is not yet set raises `KeyError` in the
source; here it yields `none`. -/
def fwdOne (deps : List (String × List String)) (info : List (String × CpmRec))
    (tid : String) : Option (List (String × CpmRec)) := do
  let dv ← aget deps tid
  let es ← dv.foldlM (fun a d => ((aget info d).bind CpmRec.ef).map (fun e => max a e)) (0 : ℚ)
  let r0 ← aget info tid
  pure (dset info tid { r0 with es := some es, ef := some (es + r0.duration) })

/-- One backward-pass step: `lf = min(LS of successors)` (project finish if
none), guarded by `"ls" in info[s]` exactly as in the source. -/
def bwdOne (deps : List (String × List String)) (projFinish : ℚ)
    (info : List (String × CpmRec)) (tid : String) : Option (List (String × CpmRec)) := do
  let succ_ls := info.filterMap (fun p => if tid ∈ (aget deps p.1).getD [] then p.2.ls else none)
  let lf := minD succ_ls projFinish
  let r0 ← aget info tid
  pure (dset info tid { r0 with ls := some (lf - r0.duration), lf := some lf })

/-- `compute_cpm_baseline` (scheduling.py lines 24-56). -/
def compute_cpm_baseline (tasks : List Task) : Option (List (String × CpmRec)) := do
  let info0 := infoInit tasks
  let deps := depsOf tasks
  let order := topological_order tasks
  let info1 ← order.foldlM (fwdOne deps) info0
  let efs ← info1.mapM (fun p => p.2.ef)
  let projFinish := maxD efs 0
  order.reverse.foldlM (bwdOne deps projFinish) info1

/-! ### `level_resources` (scheduling.py lines 58-130) -/

/-- A produced schedule entry (the dict stored in `schedule[tid]`). -/
structure Entry where
  task : String
  sectionLabel : Option String
  subsectionLabel : Option String
  start : ℚ
  finish : ℚ
  duration : ℚ
  crew_code : Option String
  crew_category : Option String
deriving Repr, DecidableEq

/-- A record of the pooled-mode `scheduled` list. -/
structure CatRec where
  cat : String
  start : ℚ
  finish : ℚ
deriving Repr, DecidableEq

/-- `cat_active_at` (scheduling.py lines 98-103): count of same-category
intervals strictly containing `timepoint`. -/
def cat_active_at (scheduled : List CatRec) (cat : String) (timepoint : ℚ) : Nat :=
  (scheduled.filter (fun r => decide (r.cat = cat ∧ r.start < timepoint ∧ timepoint < r.finish))).length

/-- The pooled-mode slot search (scheduling.py lines 104-107): while the
candidate start conflicts with at least `cap` active intervals, advance it
to the earliest later finish of the category.  The source loop is `while
dur > 0 and cat_active_at(start) >= cap`; the fuel (supplied as
`scheduled.length + 1` by `levelLoop`) is proved sufficient below. -/
def findStart (scheduled : List CatRec) (cat : String) (cap : Int) (dur : ℚ) :
    Nat → ℚ → ℚ
  | 0, start => start
  | fuel + 1, start =>
    if 0 < dur ∧ cap ≤ (cat_active_at scheduled cat start : Int) then
      match (scheduled.filter (fun r => decide (r.cat = cat ∧ start < r.finish))).map CatRec.finish with
      | [] => findStart scheduled cat cap dur fuel start
      | f :: fs => findStart scheduled cat cap dur fuel (fs.foldl (fun a b => min a b) f)
    else start

/-- The dependency scan (scheduling.py lines 82-87): take the max of the
already-scheduled finish, falling back to the baseline EF. -/
def estOfDeps (schedule : List (String × Entry)) (base : List (String × CpmRec)) :
    List String → ℚ → Option ℚ
  | [], est => some est
  | d :: ds, est =>
    match aget schedule d with
    | some e => estOfDeps schedule base ds (max est e.finish)
    | none =>
      match (aget base d).bind CpmRec.ef with
      | some efd => estOfDeps schedule base ds (max est efd)
      | none => none

/-- Branch selection for the start time (scheduling.py lines 90-111). -/
def levelStart (pool_by_category : Bool) (capacity_by_category : List (String × Int))
    (scheduled : List CatRec) (code_busy_until : List (String × ℚ))
    (t : Task) (dur est : ℚ) : ℚ :=
  if t.crew_category = none ∧ t.crew_code = none then est
  else if pool_by_category then
    let cat := t.crew_category.getD "UNSPEC"
    let cap : Int := max 1 ((aget capacity_by_category cat).getD 1)
    findStart scheduled cat cap dur (scheduled.length + 1) est
  else
    let code := t.crew_code.getD "UNSPEC"
    max est (dgetQ code_busy_until code)

/-- The main `for t in order` loop of `level_resources` (lines 78-128),
threading the schedule dict, the pooled `scheduled` list and the exact-mode
`code_busy_until` map. -/
def levelLoop (base : List (String × CpmRec)) (pool_by_category : Bool)
    (capacity_by_category : List (String × Int)) :
    List Task → List (String × Entry) → List CatRec → List (String × ℚ) →
    Option (List (String × Entry))
  | [], schedule, _, _ => some schedule
  | t :: rest, schedule, scheduled, code_busy_until => do
    let dur := t.duration_hours.getD 0
    let est0 ← estOfDeps schedule base t.dependencies 0
    let es ← (aget base t.id).bind CpmRec.es
    let est := max est0 es
    let start := levelStart pool_by_category capacity_by_category scheduled code_busy_until t dur est
    let finish := start + dur
    let e : Entry := ⟨t.name, t.sectionLabel, t.subsectionLabel, start, finish, dur,
      t.crew_code, t.crew_category⟩
    if pool_by_category then
      levelLoop base pool_by_category capacity_by_category rest (dset schedule t.id e)
        (scheduled ++ [⟨t.crew_category.getD "UNSPEC", start, finish⟩]) code_busy_until
    else
      levelLoop base pool_by_category capacity_by_category rest (dset schedule t.id e)
        scheduled (dset code_busy_until (t.crew_code.getD "UNSPEC") finish)

/-- Python tuple `<=` on the sort key `(es, planned_day, name)`. -/
def keyLe (a b : ℚ × Int × String) : Prop :=
  a.1 < b.1 ∨ (a.1 = b.1 ∧ (a.2.1 < b.2.1 ∨ (a.2.1 = b.2.1 ∧ (a.2.2 < b.2.2 ∨ a.2.2 = b.2.2))))

instance keyLe.dec : DecidableRel keyLe := fun a b => by
  unfold keyLe; exact inferInstance

/-- `keyLe` lifted to a task paired with its precomputed sort key. -/
def taskKeyLe (a b : Task × (ℚ × Int × String)) : Prop := keyLe a.2 b.2

instance taskKeyLe.dec : DecidableRel taskKeyLe := fun a b => keyLe.dec a.2 b.2

/-- `sorted(tasks, key=lambda t: (es, planned_day, name))` (line 69): the
key lookup `base_info[t["id"]]["es"]` can raise, hence the `Option`; the
sort itself is a stable sort by the key. -/
def levelOrder (tasks : List Task) (base : List (String × CpmRec)) :
    Option (List (Task × (ℚ × Int × String))) :=
  (tasks.mapM (fun t => ((aget base t.id).bind CpmRec.es).map
    (fun es => (t, (es, t.planned_day, t.name))))).map
    (List.insertionSort taskKeyLe)

/-- `level_resources` (scheduling.py lines 58-130). -/
def level_resources (tasks : List Task) (base_info : List (String × CpmRec))
    (pool_by_category : Bool) (capacity_by_category : List (String × Int)) :
    Option (List (String × Entry)) := do
  let ord ← levelOrder tasks base_info
  levelLoop base_info pool_by_category capacity_by_category (ord.map Prod.fst) [] [] []

/-! ### `compute_project_metrics` (scheduling.py lines 132-136) -/

/-- `compute_project_metrics`: project duration in days. -/
def compute_project_metrics (schedule : List (String × Entry)) (hours_per_day : ℚ) : ℚ :=
  match schedule with
  | [] => 0
  | p :: rest => (rest.foldl (fun a q => max a q.2.finish) p.2.finish) / max 1 hours_per_day

/-! ### Lemmas about the dictionary operations -/

theorem aget_dset_self {α : Type} (m : List (String × α)) (k : String) (v : α) :
    aget (dset m k v) k = some v := by
  induction m with
  | nil => simp [aget, dset]
  | cons p rest ih =>
    obtain ⟨k', v'⟩ := p
    by_cases h : k' = k
    · simp [aget, dset, h]
    · simp [aget, dset, h, ih]

theorem aget_dset_ne {α : Type} (m : List (String × α)) (k k' : String) (v : α)
    (h : k' ≠ k) : aget (dset m k v) k' = aget m k' := by
  induction m with
  | nil =>
    have h2 : ¬ k = k' := fun hh => h hh.symm
    simp [aget, dset, h2]
  | cons p rest ih =>
    obtain ⟨a, b⟩ := p
    by_cases ha : a = k
    · subst ha
      have h2 : ¬ a = k' := fun hh => h hh.symm
      simp [dset, aget, h2]
    · simp [dset, ha, aget, ih]

theorem dset_keys_of_mem {α : Type} (m : List (String × α)) (k : String) (v : α)
    (h : k ∈ m.map Prod.fst) : (dset m k v).map Prod.fst = m.map Prod.fst := by
  induction m with
  | nil => simp at h
  | cons p rest ih =>
    obtain ⟨a, b⟩ := p
    by_cases ha : a = k
    · simp [dset, ha]
    · have : k ∈ rest.map Prod.fst := by
        simp only [List.map_cons, List.mem_cons] at h
        exact h.resolve_left (fun hh => ha hh.symm)
      simp [dset, ha, ih this]

theorem dset_eq_append_of_not_mem {α : Type} (m : List (String × α)) (k : String) (v : α)
    (h : k ∉ m.map Prod.fst) : dset m k v = m ++ [(k, v)] := by
  induction m with
  | nil => simp [dset]
  | cons p rest ih =>
    obtain ⟨a, b⟩ := p
    simp only [List.map_cons, List.mem_cons, not_or] at h
    have h2 : ¬ a = k := fun hh => h.1 hh.symm
    simp [dset, h2, ih h.2]

theorem aget_isSome_iff_mem {α : Type} (m : List (String × α)) (k : String) :
    (aget m k).isSome ↔ k ∈ m.map Prod.fst := by
  induction m with
  | nil => simp [aget]
  | cons p rest ih =>
    obtain ⟨a, b⟩ := p
    by_cases ha : a = k
    · simp [aget, ha]
    · have h2 : ¬ k = a := fun hh => ha hh.symm
      simp [aget, ha, ih, h2]

theorem aget_eq_none_of_not_mem {α : Type} (m : List (String × α)) (k : String)
    (h : k ∉ m.map Prod.fst) : aget m k = none := by
  cases hh : aget m k with
  | none => rfl
  | some v => exact absurd ((aget_isSome_iff_mem m k).1 (by simp [hh])) h

theorem mem_of_aget {α : Type} {m : List (String × α)} {k : String} {v : α}
    (h : aget m k = some v) : (k, v) ∈ m := by
  induction m with
  | nil => simp [aget] at h
  | cons p rest ih =>
    obtain ⟨a, b⟩ := p
    by_cases ha : a = k
    · subst ha
      obtain rfl : b = v := by simpa [aget] using h
      exact List.mem_cons_self _ _
    · simp only [aget, if_neg ha] at h
      exact List.mem_cons_of_mem _ (ih h)

theorem aget_of_mem_of_nodup {α : Type} {m : List (String × α)} {k : String} {v : α}
    (hnd : (m.map Prod.fst).Nodup) (h : (k, v) ∈ m) : aget m k = some v := by
  induction m with
  | nil => simp at h
  | cons p rest ih =>
    obtain ⟨a, b⟩ := p
    simp only [List.map_cons, List.nodup_cons] at hnd
    rcases List.mem_cons.1 h with h1 | h1
    · cases h1
      simp [aget]
    · have hak : a ≠ k := by
        intro hh
        subst hh
        exact hnd.1 (by simpa using List.mem_map_of_mem Prod.fst h1)
      simp [aget, hak, ih hnd.2 h1]

theorem aget_append_left {α : Type} (m₁ m₂ : List (String × α)) (k : String)
    (h : (aget m₁ k).isSome) : aget (m₁ ++ m₂) k = aget m₁ k := by
  induction m₁ with
  | nil => simp [aget] at h
  | cons p rest ih =>
    obtain ⟨a, b⟩ := p
    by_cases ha : a = k
    · simp [aget, ha]
    · simp only [aget, if_neg ha] at h ⊢
      exact ih h

theorem aget_append_right {α : Type} (m₁ m₂ : List (String × α)) (k : String)
    (h : k ∉ m₁.map Prod.fst) : aget (m₁ ++ m₂) k = aget m₂ k := by
  induction m₁ with
  | nil => simp
  | cons p rest ih =>
    obtain ⟨a, b⟩ := p
    simp only [List.map_cons, List.mem_cons, not_or] at h
    have h2 : ¬ a = k := fun hh => h.1 hh.symm
    simp [aget, h2, ih h.2]

theorem aget_map_value {α β : Type} (m : List (String × α)) (f : α → β) (k : String) :
    aget (m.map (fun p => (p.1, f p.2))) k = (aget m k).map f := by
  induction m with
  | nil => simp [aget]
  | cons p rest ih =>
    obtain ⟨a, b⟩ := p
    by_cases ha : a = k
    · simp [aget, ha]
    · simp [aget, ha, ih]

/-! ### Lemmas about running maxima / minima -/

theorem foldl_maxg_init_le {α : Type} (g : α → ℚ) (l : List α) (z : ℚ) :
    z ≤ l.foldl (fun a x => max a (g x)) z := by
  induction l generalizing z with
  | nil => simp
  | cons x xs ih => exact le_trans (le_max_left _ _) (ih (max z (g x)))

theorem foldl_maxg_mem_le {α : Type} (g : α → ℚ) (l : List α) (z : ℚ) {x : α}
    (h : x ∈ l) : g x ≤ l.foldl (fun a y => max a (g y)) z := by
  induction l generalizing z with
  | nil => simp at h
  | cons y ys ih =>
    rcases List.mem_cons.1 h with h1 | h1
    · subst h1
      exact le_trans (le_max_right _ _) (foldl_maxg_init_le g ys _)
    · exact ih _ h1

theorem foldl_maxg_le {α : Type} (g : α → ℚ) (l : List α) (z b : ℚ)
    (hz : z ≤ b) (h : ∀ x ∈ l, g x ≤ b) : l.foldl (fun a x => max a (g x)) z ≤ b := by
  induction l generalizing z with
  | nil => simpa
  | cons y ys ih =>
    exact ih _ (max_le hz (h y (List.mem_cons_self _ _)))
      (fun x hx => h x (List.mem_cons_of_mem _ hx))

theorem foldl_maxg_eq_init_or_mem {α : Type} (g : α → ℚ) (l : List α) (z : ℚ) :
    l.foldl (fun a x => max a (g x)) z = z ∨
      ∃ x ∈ l, l.foldl (fun a x => max a (g x)) z = g x := by
  induction l generalizing z with
  | nil => exact Or.inl rfl
  | cons y ys ih =>
    rcases ih (max z (g y)) with h | ⟨x, hx, hmax⟩
    · simp only [List.foldl_cons]
      rcases max_choice z (g y) with hc | hc

      · exact Or.inl (h.trans hc)
      · exact Or.inr ⟨y, List.mem_cons_self _ _, h.trans hc⟩
    · exact Or.inr ⟨x, List.mem_cons_of_mem _ hx, hmax⟩

/-- A running max over a list only depends on the set of members; in
particular deduplication does not change it. -/
theorem foldl_maxg_dedup (g : String → ℚ) (l : List String) (z : ℚ) :
    l.dedup.foldl (fun a x => max a (g x)) z = l.foldl (fun a x => max a (g x)) z := by
  apply le_antisymm
  · apply foldl_maxg_le
    · exact foldl_maxg_init_le g l z
    · exact fun x hx => foldl_maxg_mem_le g l z (List.mem_dedup.1 hx)
  · apply foldl_maxg_le
    · exact foldl_maxg_init_le g l.dedup z
    · exact fun x hx => foldl_maxg_mem_le g l.dedup z (List.mem_dedup.2 hx)

theorem foldl_min_mem (f : ℚ) (fs : List ℚ) :
    fs.foldl (fun a b => min a b) f ∈ f :: fs := by
  induction fs generalizing f with
  | nil => simp
  | cons y ys ih =>
    simp only [List.foldl_cons]
    rcases List.mem_cons.1 (ih (min f y)) with h | h
    · rw [h]
      rcases min_choice f y with hc | hc
      · rw [hc]; exact List.mem_cons_self _ _
      · rw [hc]; exact List.mem_cons_of_mem _ (List.mem_cons_self _ _)
    · exact List.mem_cons_of_mem _ (List.mem_cons_of_mem _ h)

theorem foldl_min_le (fs : List ℚ) : ∀ (f x : ℚ), x ∈ f :: fs →
    fs.foldl (fun a b => min a b) f ≤ x := by
  induction fs with
  | nil =>
    intro f x hx
    rw [List.mem_singleton.1 hx]
    simp
  | cons y ys ih =>
    intro f x hx
    simp only [List.foldl_cons]
    rcases List.mem_cons.1 hx with h1 | h1
    · rw [h1]
      exact le_trans (ih (min f y) _ (List.mem_cons_self _ _)) (min_le_left _ _)
    · rcases List.mem_cons.1 h1 with h2 | h2
      · rw [h2]
        exact le_trans (ih (min f y) _ (List.mem_cons_self _ _)) (min_le_right _ _)
      · exact ih (min f y) _ (List.mem_cons_of_mem _ h2)

/-! ### Characterization of `relax` -/

theorem relax_cons_mem (u v : String) (dv : List String) (rest : List (String × List String))
    (indeg : List (String × Int)) (q : List String) (h : u ∈ dv) :
    relax u ((v, dv) :: rest) indeg q =
      ((v, dv.erase u) ::
        (relax u rest (dset indeg v (dgetI indeg v - 1))
          (if dgetI indeg v - 1 = 0 then q ++ [v] else q)).1,
       (relax u rest (dset indeg v (dgetI indeg v - 1))
          (if dgetI indeg v - 1 = 0 then q ++ [v] else q)).2) := by
  have hd : dgetI (dset indeg v (dgetI indeg v - 1)) v = dgetI indeg v - 1 := by
    simp [dgetI, aget_dset_self]
  simp [relax, h, hd]

theorem relax_cons_not_mem (u v : String) (dv : List String)
    (rest : List (String × List String)) (indeg : List (String × Int)) (q : List String)
    (h : u ∉ dv) :
    relax u ((v, dv) :: rest) indeg q =
      ((v, dv) :: (relax u rest indeg q).1, (relax u rest indeg q).2) := by
  simp [relax, h]

theorem relax_fst (u : String) (deps : List (String × List String))
    (indeg : List (String × Int)) (q : List String) :
    (relax u deps indeg q).1 = deps.map (fun p => (p.1, p.2.erase u)) := by
  induction deps generalizing indeg q with
  | nil => simp [relax]
  | cons p rest ih =>
    obtain ⟨v, dv⟩ := p
    by_cases h : u ∈ dv
    · rw [relax_cons_mem _ _ _ _ _ _ h]
      simp [ih]
    · rw [relax_cons_not_mem _ _ _ _ _ _ h]
      simp [ih, List.erase_of_not_mem h]

theorem relax_indeg_not_mem (u : String) (deps : List (String × List String))
    (indeg : List (String × Int)) (q : List String) (k : String)
    (h : k ∉ deps.map Prod.fst) :
    aget (relax u deps indeg q).2.1 k = aget indeg k := by
  induction deps generalizing indeg q with
  | nil => simp [relax]
  | cons p rest ih =>
    obtain ⟨v, dv⟩ := p
    simp only [List.map_cons, List.mem_cons, not_or] at h
    by_cases hm : u ∈ dv
    · rw [relax_cons_mem _ _ _ _ _ _ hm]
      dsimp only
      rw [ih _ _ h.2, aget_dset_ne _ _ _ _ h.1]
    · rw [relax_cons_not_mem _ _ _ _ _ _ hm]
      dsimp only
      exact ih _ _ h.2

theorem relax_indeg_keys (u : String) (deps : List (String × List String))
    (indeg : List (String × Int)) (q : List String)
    (hsub : ∀ p ∈ deps, p.1 ∈ indeg.map Prod.fst) :
    (relax u deps indeg q).2.1.map Prod.fst = indeg.map Prod.fst := by
  induction deps generalizing indeg q with
  | nil => simp [relax]
  | cons p rest ih =>
    obtain ⟨v, dv⟩ := p
    by_cases hm : u ∈ dv
    · have hv : v ∈ indeg.map Prod.fst := hsub (v, dv) (List.mem_cons_self _ _)
      have hkeys := dset_keys_of_mem indeg v (dgetI indeg v - 1) hv
      rw [relax_cons_mem _ _ _ _ _ _ hm]
      dsimp only
      have hsub' : ∀ p ∈ rest, p.1 ∈ (dset indeg v (dgetI indeg v - 1)).map Prod.fst := by
        intro p hp
        rw [hkeys]
        exact hsub p (List.mem_cons_of_mem _ hp)
      rw [ih _ _ hsub', hkeys]
    · rw [relax_cons_not_mem _ _ _ _ _ _ hm]
      dsimp only
      exact ih _ _ (fun p hp => hsub p (List.mem_cons_of_mem _ hp))

theorem relax_indeg_aget (u : String) (deps : List (String × List String))
    (indeg : List (String × Int)) (q : List String)
    (hk : (deps.map Prod.fst).Nodup) (k : String) (dv : List String)
    (hdv : aget deps k = some dv) :
    aget (relax u deps indeg q).2.1 k =
      if u ∈ dv then some (dgetI indeg k - 1) else aget indeg k := by
  induction deps generalizing indeg q with
  | nil => simp [aget] at hdv
  | cons p rest ih =>
    obtain ⟨v, dw⟩ := p
    simp only [List.map_cons, List.nodup_cons] at hk
    by_cases hv : v = k
    · subst hv
      obtain rfl : dw = dv := by simpa [aget] using hdv
      by_cases hm : u ∈ dw
      · rw [relax_cons_mem _ _ _ _ _ _ hm]
        dsimp only
        rw [relax_indeg_not_mem _ _ _ _ _ hk.1, aget_dset_self, if_pos hm]
      · rw [relax_cons_not_mem _ _ _ _ _ _ hm]
        dsimp only
        rw [relax_indeg_not_mem _ _ _ _ _ hk.1, if_neg hm]
    · have hdv' : aget rest k = some dv := by
        simpa [aget, hv] using hdv
      have hkv : k ≠ v := fun hh => hv hh.symm
      by_cases hm : u ∈ dw
      · rw [relax_cons_mem _ _ _ _ _ _ hm]
        dsimp only
        have h1 : aget (dset indeg v (dgetI indeg v - 1)) k = aget indeg k :=
          aget_dset_ne _ _ _ _ hkv
        rw [ih _ _ hk.2 hdv']
        have h3 : dgetI (dset indeg v (dgetI indeg v - 1)) k = dgetI indeg k := by
          simp [dgetI, aget_dset_ne _ _ _ _ hkv]
        by_cases hm2 : u ∈ dv
        · rw [if_pos hm2, if_pos hm2, h3]
        · rw [if_neg hm2, if_neg hm2, h1]
      · rw [relax_cons_not_mem _ _ _ _ _ _ hm]
        dsimp only
        exact ih _ _ hk.2 hdv'

theorem relax_q (u : String) (deps : List (String × List String))
    (indeg : List (String × Int)) (q : List String)
    (hk : (deps.map Prod.fst).Nodup) :
    (relax u deps indeg q).2.2 =
      q ++ (deps.filter (fun p => decide (u ∈ p.2 ∧ dgetI indeg p.1 = 1))).map Prod.fst := by
  induction deps generalizing indeg q with
  | nil => simp [relax]
  | cons p rest ih =>
    obtain ⟨v, dw⟩ := p
    simp only [List.map_cons, List.nodup_cons] at hk
    by_cases hm : u ∈ dw
    · rw [relax_cons_mem _ _ _ _ _ _ hm]
      dsimp only
      have heq : ∀ x ∈ rest,
          (decide (u ∈ x.2 ∧ dgetI (dset indeg v (dgetI indeg v - 1)) x.1 = 1) : Bool) =
          decide (u ∈ x.2 ∧ dgetI indeg x.1 = 1) := by
        intro x hx
        have hxv : x.1 ≠ v := by
          intro hh
          exact hk.1 (hh ▸ List.mem_map_of_mem Prod.fst hx)
        simp [dgetI, aget_dset_ne _ _ _ _ hxv]
      rw [ih _ _ hk.2, List.filter_congr heq]
      by_cases hz : dgetI indeg v - 1 = 0
      · have hone : dgetI indeg v = 1 := by omega
        rw [if_pos hz]
        simp [List.filter_cons, hm, hone]
      · have hone : ¬ dgetI indeg v = 1 := by omega
        rw [if_neg hz]
        simp [List.filter_cons, hm, hone]
    · rw [relax_cons_not_mem _ _ _ _ _ _ hm]
      dsimp only
      rw [ih _ _ hk.2]
      simp [List.filter_cons, hm]

theorem sum_lengths_erase (u : String) (deps : List (String × List String)) :
    ((deps.map (fun p => (p.1, p.2.erase u))).map (fun p => p.2.length)).sum +
      (deps.filter (fun p => decide (u ∈ p.2))).length =
    (deps.map (fun p => p.2.length)).sum := by
  induction deps with
  | nil => simp
  | cons p rest ih =>
    obtain ⟨v, dw⟩ := p
    simp only [List.map_map] at ih
    by_cases hm : u ∈ dw
    · have h1 : (dw.erase u).length = dw.length - 1 := List.length_erase_of_mem hm
      have h2 : 0 < dw.length := List.length_pos.2 (List.ne_nil_of_mem hm)
      simp [List.filter_cons, hm]
      omega
    · simp [List.filter_cons, hm, List.erase_of_not_mem hm]
      omega

theorem pushed_le_cnt (u : String) (indeg : List (String × Int))
    (deps : List (String × List String)) :
    ((deps.filter (fun p => decide (u ∈ p.2 ∧ dgetI indeg p.1 = 1))).map Prod.fst).length ≤
      (deps.filter (fun p => decide (u ∈ p.2))).length := by
  rw [List.length_map, ← List.countP_eq_length_filter, ← List.countP_eq_length_filter]
  apply List.countP_mono_left
  intro x hx h
  simp only [decide_eq_true_eq] at h ⊢
  exact h.1

theorem relax_measure (u : String) (deps : List (String × List String))
    (indeg : List (String × Int)) (q : List String)
    (hk : (deps.map Prod.fst).Nodup) :
    (relax u deps indeg q).2.2.length +
      ((relax u deps indeg q).1.map (fun p => p.2.length)).sum ≤
    q.length + (deps.map (fun p => p.2.length)).sum := by
  rw [relax_q u deps indeg q hk, relax_fst]
  have h1 := sum_lengths_erase u deps
  have h2 := pushed_le_cnt u indeg deps
  simp only [List.length_append]
  omega

/-! ### The Kahn loop invariant -/

theorem keys_map_value {α β : Type} (m : List (String × α)) (g : String × α → β) :
    (m.map (fun p => (p.1, g p))).map Prod.fst = m.map Prod.fst := by
  induction m with
  | nil => rfl
  | cons p rest ih => simp [ih]

theorem erase_eq_nil_cases (dv : List String) (u : String) (h : dv.erase u = []) :
    dv = [] ∨ dv = [u] := by
  cases dv with
  | nil => exact Or.inl rfl
  | cons a l =>
    rw [List.erase_cons] at h
    by_cases ha : a = u
    · subst ha
      simp at h
      simp [h]
    · simp [ha] at h

theorem single_of_mem_length_one {dv : List String} {u : String}
    (hu : u ∈ dv) (hl : (dv.length : Int) = 1) : dv = [u] := by
  have h1 : dv.length = 1 := by exact_mod_cast hl
  obtain ⟨a, ha⟩ := List.length_eq_one.1 h1
  subst ha
  obtain rfl : u = a := by simpa using hu
  rfl

/-- The invariant maintained by Kahn's loop.  `ids` is the fixed key list
of both dictionaries, `deps0 v` the initial (deduplicated) dependency set
of `v`.  `order` is the accumulated output, `q` the pending queue. -/
structure KInv (ids : List String) (deps0 : String → List String)
    (deps : List (String × List String)) (indeg : List (String × Int))
    (q order : List String) : Prop where
  ids_nodup : ids.Nodup
  deps_keys : deps.map Prod.fst = ids
  indeg_keys : indeg.map Prod.fst = ids
  dv_nodup : ∀ p ∈ deps, p.2.Nodup
  indeg_val : ∀ v dv, aget deps v = some dv → aget indeg v = some (dv.length : Int)
  order_nodup : order.Nodup
  q_nodup : q.Nodup
  q_not_order : ∀ v ∈ q, v ∉ order
  q_ids : ∀ v ∈ q, v ∈ ids
  order_ids : ∀ v ∈ order, v ∈ ids
  q_empty : ∀ v ∈ q, aget deps v = some []
  order_empty : ∀ v ∈ order, aget deps v = some []
  dv_not_order : ∀ v dv, aget deps v = some dv → ∀ d ∈ dv, d ∉ order
  dv_sub : ∀ v dv, aget deps v = some dv → dv ⊆ deps0 v
  removed_mem : ∀ v dv, aget deps v = some dv → ∀ d ∈ deps0 v, d ∉ dv → d ∈ order
  zero_in : ∀ v ∈ ids, aget deps v = some [] → v ∈ order ∨ v ∈ q
  before : ∀ v ∈ order, ∀ d ∈ deps0 v, [d, v].Sublist order

theorem KInv_step (ids : List String) (deps0 : String → List String)
    (deps : List (String × List String)) (indeg : List (String × Int))
    (u : String) (rest order : List String)
    (inv : KInv ids deps0 deps indeg (u :: rest) order) :
    KInv ids deps0 (relax u deps indeg rest).1 (relax u deps indeg rest).2.1
      (relax u deps indeg rest).2.2 (order ++ [u]) := by
  have hk : (deps.map Prod.fst).Nodup := by rw [inv.deps_keys]; exact inv.ids_nodup
  have hrest_nd : rest.Nodup := (List.nodup_cons.1 inv.q_nodup).2
  have hu_rest : u ∉ rest := (List.nodup_cons.1 inv.q_nodup).1
  have hu_ids : u ∈ ids := inv.q_ids u (List.mem_cons_self _ _)
  have hu_no : u ∉ order := inv.q_not_order u (List.mem_cons_self _ _)
  have hu_deps : aget deps u = some [] := inv.q_empty u (List.mem_cons_self _ _)
  have hfst : (relax u deps indeg rest).1 = deps.map (fun p => (p.1, p.2.erase u)) :=
    relax_fst u deps indeg rest
  have hagetD : ∀ k, aget (relax u deps indeg rest).1 k =
      (aget deps k).map (fun dv => dv.erase u) := by
    intro k
    rw [hfst]
    exact aget_map_value deps (fun dv => dv.erase u) k
  have hq : (relax u deps indeg rest).2.2 =
      rest ++ (deps.filter (fun p => decide (u ∈ p.2 ∧ dgetI indeg p.1 = 1))).map Prod.fst :=
    relax_q u deps indeg rest hk
  have hpush : ∀ x, x ∈ (deps.filter
        (fun p => decide (u ∈ p.2 ∧ dgetI indeg p.1 = 1))).map Prod.fst →
      ∃ dv, aget deps x = some dv ∧ u ∈ dv ∧ dv = [u] := by
    intro x hx
    obtain ⟨p, hpmem, hpx⟩ := List.mem_map.1 hx
    subst hpx
    have hcond := List.of_mem_filter hpmem
    have hmem := List.mem_of_mem_filter hpmem
    simp only [decide_eq_true_eq] at hcond
    have hag : aget deps p.1 = some p.2 := aget_of_mem_of_nodup hk hmem
    have hval := inv.indeg_val p.1 p.2 hag
    have hlen : (p.2.length : Int) = 1 := by
      have hd : dgetI indeg p.1 = (p.2.length : Int) := by simp [dgetI, hval]
      rw [← hd]
      exact hcond.2
    exact ⟨p.2, hag, hcond.1, single_of_mem_length_one hcond.1 hlen⟩
  refine ⟨inv.ids_nodup, ?_, ?_, ?_, ?_, ?_, ?_, ?_, ?_, ?_, ?_, ?_, ?_, ?_, ?_, ?_, ?_⟩
  · rw [hfst, keys_map_value]
    exact inv.deps_keys
  · rw [relax_indeg_keys u deps indeg rest
      (fun p hp => by rw [inv.indeg_keys, ← inv.deps_keys]; exact List.mem_map_of_mem _ hp)]
    exact inv.indeg_keys
  · intro p hp
    rw [hfst] at hp
    obtain ⟨p0, hp0, hpe⟩ := List.mem_map.1 hp
    rw [← hpe]
    exact (inv.dv_nodup p0 hp0).erase u
  · intro v dv' hdv'
    rw [hagetD v] at hdv'
    obtain ⟨dv, hdv, hdve⟩ := Option.map_eq_some'.1 hdv'
    have hval := inv.indeg_val v dv hdv
    rw [relax_indeg_aget u deps indeg rest hk v dv hdv]
    by_cases hm : u ∈ dv
    · rw [if_pos hm, ← hdve]
      have h1 : (dv.erase u).length = dv.length - 1 := List.length_erase_of_mem hm
      have h2 : 1 ≤ dv.length := List.length_pos.2 (List.ne_nil_of_mem hm)
      have h3 : dgetI indeg v = (dv.length : Int) := by simp [dgetI, hval]
      rw [h3, h1, Nat.cast_sub h2]
      simp
    · rw [if_neg hm, hval, ← hdve, List.erase_of_not_mem hm]
  · rw [List.nodup_append]
    refine ⟨inv.order_nodup, by simp, ?_⟩
    intro a ha hb
    simp only [List.mem_singleton] at hb
    exact hu_no (hb ▸ ha)
  · rw [hq, List.nodup_append]
    refine ⟨hrest_nd, ?_, ?_⟩
    · have hsub : ((deps.filter
          (fun p => decide (u ∈ p.2 ∧ dgetI indeg p.1 = 1))).map Prod.fst).Sublist
          (deps.map Prod.fst) := (List.filter_sublist _).map Prod.fst
      exact hsub.nodup hk
    · intro a ha hb
      obtain ⟨dv, hdv, hmem, _⟩ := hpush a hb
      have := inv.q_empty a (List.mem_cons_of_mem _ ha)
      rw [this] at hdv
      cases hdv
      simp at hmem
  · intro v hv
    rw [hq] at hv
    rcases List.mem_append.1 hv with h1 | h1
    · intro hvo
      rcases List.mem_append.1 hvo with h2 | h2
      · exact inv.q_not_order v (List.mem_cons_of_mem _ h1) h2
      · simp only [List.mem_singleton] at h2
        exact hu_rest (h2 ▸ h1)
    · obtain ⟨dv, hdv, hmem, _⟩ := hpush v h1
      intro hvo
      rcases List.mem_append.1 hvo with h2 | h2
      · have := inv.order_empty v h2
        rw [this] at hdv
        cases hdv
        simp at hmem
      · simp only [List.mem_singleton] at h2
        subst h2
        rw [hu_deps] at hdv
        cases hdv
        simp at hmem
  · intro v hv
    rw [hq] at hv
    rcases List.mem_append.1 hv with h1 | h1
    · exact inv.q_ids v (List.mem_cons_of_mem _ h1)
    · obtain ⟨dv, hdv, _, _⟩ := hpush v h1
      rw [← inv.deps_keys]
      exact (aget_isSome_iff_mem deps v).1 (by simp [hdv])
  · intro v hv
    rcases List.mem_append.1 hv with h1 | h1
    · exact inv.order_ids v h1
    · simp only [List.mem_singleton] at h1
      exact h1 ▸ hu_ids
  · intro v hv
    rw [hq] at hv
    rw [hagetD v]
    rcases List.mem_append.1 hv with h1 | h1
    · rw [inv.q_empty v (List.mem_cons_of_mem _ h1)]
      simp
    · obtain ⟨dv, hdv, _, hsingle⟩ := hpush v h1
      rw [hdv, hsingle]
      simp
  · intro v hv
    rw [hagetD v]
    rcases List.mem_append.1 hv with h1 | h1
    · rw [inv.order_empty v h1]
      simp
    · simp only [List.mem_singleton] at h1
      subst h1
      rw [hu_deps]
      simp
  · intro v dv' hdv' d hd
    rw [hagetD v] at hdv'
    obtain ⟨dv, hdv, hdve⟩ := Option.map_eq_some'.1 hdv'
    rw [← hdve] at hd
    have hnd := inv.dv_nodup _ (mem_of_aget hdv)
    have hdu : d ≠ u ∧ d ∈ dv := (hnd.mem_erase_iff).1 hd
    intro hmem
    rcases List.mem_append.1 hmem with h2 | h2
    · exact inv.dv_not_order v dv hdv d hdu.2 h2
    · simp only [List.mem_singleton] at h2
      exact hdu.1 h2
  · intro v dv' hdv'
    rw [hagetD v] at hdv'
    obtain ⟨dv, hdv, hdve⟩ := Option.map_eq_some'.1 hdv'
    rw [← hdve]
    exact fun d hd => inv.dv_sub v dv hdv (List.erase_subset _ _ hd)
  · intro v dv' hdv' d hd0 hdnot
    rw [hagetD v] at hdv'
    obtain ⟨dv, hdv, hdve⟩ := Option.map_eq_some'.1 hdv'
    rw [← hdve] at hdnot
    by_cases hmem : d ∈ dv
    · have hnd := inv.dv_nodup _ (mem_of_aget hdv)
      have : d = u := by
        by_contra hne
        exact hdnot ((hnd.mem_erase_iff).2 ⟨hne, hmem⟩)
      subst this
      exact List.mem_append.2 (Or.inr (List.mem_singleton.2 rfl))
    · exact List.mem_append.2 (Or.inl (inv.removed_mem v dv hdv d hd0 hmem))
  · intro v hv hdv'
    rw [hagetD v] at hdv'
    obtain ⟨dv, hdv, hdve⟩ := Option.map_eq_some'.1 hdv'
    rcases erase_eq_nil_cases dv u hdve with h1 | h1
    · subst h1
      rcases inv.zero_in v hv hdv with h2 | h2
      · exact Or.inl (List.mem_append.2 (Or.inl h2))
      · rcases List.mem_cons.1 h2 with h3 | h3
        · exact Or.inl (List.mem_append.2 (Or.inr (by simp [h3])))
        · exact Or.inr (by rw [hq]; exact List.mem_append.2 (Or.inl h3))
    · subst h1
      refine Or.inr ?_
      rw [hq]
      refine List.mem_append.2 (Or.inr ?_)
      have hval := inv.indeg_val v [u] hdv
      refine List.mem_map.2 ⟨(v, [u]), List.mem_filter.2 ⟨mem_of_aget hdv, ?_⟩, rfl⟩
      simp [dgetI, hval]
  · intro v hv d hd0
    rcases List.mem_append.1 hv with h1 | h1
    · exact (inv.before v h1 d hd0).trans (List.sublist_append_left _ _)
    · simp only [List.mem_singleton] at h1
      subst h1
      have hd_or : d ∈ order := inv.removed_mem v [] hu_deps d hd0 (by simp)
      have : [d].Sublist order := List.singleton_sublist.2 hd_or
      exact this.append (List.Sublist.refl [v])

theorem kahnLoop_nil (fuel : Nat) (deps : List (String × List String))
    (indeg : List (String × Int)) (order : List String) :
    kahnLoop fuel deps indeg [] order = (deps, indeg, order) := by
  cases fuel <;> rfl

theorem kahnLoop_cons (n : Nat) (deps : List (String × List String))
    (indeg : List (String × Int)) (u : String) (rest order : List String) :
    kahnLoop (n + 1) deps indeg (u :: rest) order =
      kahnLoop n (relax u deps indeg rest).1 (relax u deps indeg rest).2.1
        (relax u deps indeg rest).2.2 (order ++ [u]) := rfl

theorem kahnLoop_spec (ids : List String) (deps0 : String → List String) :
    ∀ (fuel : Nat) (deps : List (String × List String)) (indeg : List (String × Int))
      (q order : List String),
      KInv ids deps0 deps indeg q order →
      kahnFuel deps q ≤ fuel →
      ∃ deps' indeg' order',
        kahnLoop fuel deps indeg q order = (deps', indeg', order') ∧
        KInv ids deps0 deps' indeg' [] order' := by
  intro fuel
  induction fuel with
  | zero =>
    intro deps indeg q order inv hf
    cases q with
    | nil => exact ⟨deps, indeg, order, kahnLoop_nil _ _ _ _, inv⟩
    | cons u rest =>
      exfalso
      simp [kahnFuel] at hf
  | succ n ih =>
    intro deps indeg q order inv hf
    cases q with
    | nil => exact ⟨deps, indeg, order, kahnLoop_nil _ _ _ _, inv⟩
    | cons u rest =>
      have hk : (deps.map Prod.fst).Nodup := by rw [inv.deps_keys]; exact inv.ids_nodup
      have step := KInv_step ids deps0 deps indeg u rest order inv
      have hmeas := relax_measure u deps indeg rest hk
      have hf' : kahnFuel (relax u deps indeg rest).1 (relax u deps indeg rest).2.2 ≤ n := by
        simp only [kahnFuel, List.length_cons] at hf ⊢
        omega
      obtain ⟨d', i', o', heq, hinv⟩ := ih _ _ _ _ step hf'
      exact ⟨d', i', o', (kahnLoop_cons n deps indeg u rest order).trans heq, hinv⟩

/-! ### The initial state of Kahn's algorithm -/

theorem foldl_dset_fresh {α : Type} (f : Task → α) :
    ∀ (tasks : List Task) (acc : List (String × α)),
      (tasks.map Task.id).Nodup →
      (∀ t ∈ tasks, t.id ∉ acc.map Prod.fst) →
      tasks.foldl (fun m t => dset m t.id (f t)) acc =
        acc ++ tasks.map (fun t => (t.id, f t)) := by
  intro tasks
  induction tasks with
  | nil =>
    intro acc _ _
    simp
  | cons t rest ih =>
    intro acc hnd hfresh
    simp only [List.map_cons, List.nodup_cons] at hnd
    simp only [List.foldl_cons]
    rw [dset_eq_append_of_not_mem _ _ _ (hfresh t (List.mem_cons_self _ _))]
    rw [ih (acc ++ [(t.id, f t)]) hnd.2 ?_]
    · simp
    · intro s hs
      rw [List.map_append, List.mem_append]
      push_neg
      refine ⟨hfresh s (List.mem_cons_of_mem _ hs), ?_⟩
      have : s.id ≠ t.id := by
        intro hh
        exact hnd.1 (hh ▸ List.mem_map_of_mem Task.id hs)
      simpa using this

theorem keys_tasks_map {α : Type} (f : Task → α) (tasks : List Task) :
    (tasks.map (fun s => (s.id, f s))).map Prod.fst = tasks.map Task.id := by
  induction tasks with
  | nil => rfl
  | cons t rest ih => simp [ih]

theorem aget_tasks_map {α : Type} (f : Task → α) (tasks : List Task)
    (hnd : (tasks.map Task.id).Nodup) {t : Task} (ht : t ∈ tasks) :
    aget (tasks.map (fun s => (s.id, f s))) t.id = some (f t) := by
  apply aget_of_mem_of_nodup
  · rw [keys_tasks_map]
    exact hnd
  · exact List.mem_map_of_mem _ ht

theorem depsOf_eq (tasks : List Task) (hnd : (tasks.map Task.id).Nodup) :
    depsOf tasks = tasks.map (fun t => (t.id, t.dependencies.dedup)) := by
  unfold depsOf
  rw [foldl_dset_fresh _ tasks [] hnd (by simp)]
  simp

theorem indegOf_eq (tasks : List Task) (deps : List (String × List String))
    (hnd : (tasks.map Task.id).Nodup) :
    indegOf tasks deps =
      tasks.map (fun t => (t.id, (((aget deps t.id).getD []).length : Int))) := by
  unfold indegOf
  rw [foldl_dset_fresh _ tasks [] hnd (by simp)]
  simp

theorem KInv_init (tasks : List Task) (hnd : (tasks.map Task.id).Nodup) :
    KInv (tasks.map Task.id) (fun v => (aget (depsOf tasks) v).getD [])
      (depsOf tasks) (indegOf tasks (depsOf tasks))
      (((indegOf tasks (depsOf tasks)).filter (fun p => p.2 = 0)).map Prod.fst) [] := by
  have hdeq := depsOf_eq tasks hnd
  have hieq := indegOf_eq tasks (depsOf tasks) hnd
  have hdkeys : (depsOf tasks).map Prod.fst = tasks.map Task.id := by
    rw [hdeq, keys_tasks_map]
  have hikeys : (indegOf tasks (depsOf tasks)).map Prod.fst = tasks.map Task.id := by
    rw [hieq, keys_tasks_map]
  have hiknd : ((indegOf tasks (depsOf tasks)).map Prod.fst).Nodup := by
    rw [hikeys]; exact hnd
  have hival : ∀ v dv, aget (depsOf tasks) v = some dv →
      aget (indegOf tasks (depsOf tasks)) v = some (dv.length : Int) := by
    intro v dv hdv
    have hvmem := mem_of_aget hdv
    rw [hdeq] at hvmem
    obtain ⟨t, ht, hteq⟩ := List.mem_map.1 hvmem
    obtain ⟨h1, h2⟩ : t.id = v ∧ t.dependencies.dedup = dv := by
      constructor <;> [exact congrArg Prod.fst hteq; exact congrArg Prod.snd hteq]
    subst h1
    rw [hieq, aget_tasks_map _ tasks hnd ht, hdv]
    simp
  have hq0 : ∀ v ∈ (((indegOf tasks (depsOf tasks)).filter
        (fun p => p.2 = 0)).map Prod.fst), aget (depsOf tasks) v = some [] := by
    intro v hv
    obtain ⟨p, hpmem, hpx⟩ := List.mem_map.1 hv
    subst hpx
    have hcond := List.of_mem_filter hpmem
    simp only [decide_eq_true_eq] at hcond
    have hpv : aget (indegOf tasks (depsOf tasks)) p.1 = some p.2 :=
      aget_of_mem_of_nodup hiknd (List.mem_of_mem_filter hpmem)
    have hmemids : p.1 ∈ tasks.map Task.id := by
      rw [← hikeys]
      exact List.mem_map_of_mem _ (List.mem_of_mem_filter hpmem)
    have : (aget (depsOf tasks) p.1).isSome := by
      rw [aget_isSome_iff_mem, hdkeys]
      exact hmemids
    obtain ⟨dv, hdv⟩ := Option.isSome_iff_exists.1 this
    have := hival p.1 dv hdv
    rw [hpv] at this
    have hlen : (dv.length : Int) = 0 := by
      have := Option.some.inj this
      omega
    have : dv = [] := List.length_eq_zero.1 (by exact_mod_cast hlen)
    rw [hdv, this]
  refine ⟨hnd, hdkeys, hikeys, ?_, hival, List.nodup_nil, ?_, ?_, ?_, ?_, ?_, ?_, ?_, ?_, ?_, ?_, ?_⟩
  · intro p hp
    rw [hdeq] at hp
    obtain ⟨t, ht, hteq⟩ := List.mem_map.1 hp
    rw [← hteq]
    exact List.nodup_dedup _
  · exact (((List.filter_sublist _).map Prod.fst).nodup hiknd)
  · intro v _ hv
    exact (List.not_mem_nil v) hv
  · intro v hv
    rw [← hikeys]
    obtain ⟨p, hpmem, hpx⟩ := List.mem_map.1 hv
    exact hpx ▸ List.mem_map_of_mem _ (List.mem_of_mem_filter hpmem)
  · intro v hv
    exact absurd hv (List.not_mem_nil v)
  · exact hq0
  · intro v hv
    exact absurd hv (List.not_mem_nil v)
  · intro v dv _ d _ hd
    exact (List.not_mem_nil d) hd
  · intro v dv hdv
    intro d hd
    simp [hdv]
    exact hd
  · intro v dv hdv d hd0 hdnot
    exfalso
    simp [hdv] at hd0
    exact hdnot hd0
  · intro v hv hdv
    refine Or.inr ?_
    have := hival v [] hdv
    refine List.mem_map.2 ⟨(v, 0), List.mem_filter.2 ⟨mem_of_aget (by simpa using this), by simp⟩, rfl⟩
  · intro v hv
    exact absurd hv (List.not_mem_nil v)

/-! ### Consequences for `topological_order` -/

/-- Unique task ids (spec §3 invariant). -/
def UniqueIds (tasks : List Task) : Prop := (tasks.map Task.id).Nodup

/-- Dependencies reference only ids present in the list (spec §6). -/
def DepsClosed (tasks : List Task) : Prop :=
  ∀ t ∈ tasks, ∀ d ∈ t.dependencies, d ∈ tasks.map Task.id

/-- `f` is a topological rank: every dependency has strictly smaller rank.
A finite dependency relation is acyclic exactly when such a rank exists. -/
def RankedBy (tasks : List Task) (f : String → Nat) : Prop :=
  ∀ t ∈ tasks, ∀ d ∈ t.dependencies, f d < f t.id

instance UniqueIds.dec : DecidablePred UniqueIds := fun tasks => by
  unfold UniqueIds; infer_instance

instance DepsClosed.dec : DecidablePred DepsClosed := fun tasks => by
  unfold DepsClosed; infer_instance

instance RankedBy.dec (tasks : List Task) (f : String → Nat) :
    Decidable (RankedBy tasks f) := by
  unfold RankedBy; infer_instance

theorem topo_master (tasks : List Task) (hnd : UniqueIds tasks) :
    ∃ deps' indeg' order,
      KInv (tasks.map Task.id) (fun v => (aget (depsOf tasks) v).getD [])
        deps' indeg' [] order ∧
      topological_order tasks =
        order ++ (indeg'.filter
          (fun p => decide (0 < p.2) && !(order.contains p.1))).map Prod.fst := by
  obtain ⟨d', i', o', heq, hinv⟩ :=
    kahnLoop_spec (tasks.map Task.id) (fun v => (aget (depsOf tasks) v).getD [])
      (kahnFuel (depsOf tasks)
        (((indegOf tasks (depsOf tasks)).filter (fun p => p.2 = 0)).map Prod.fst))
      (depsOf tasks) (indegOf tasks (depsOf tasks))
      (((indegOf tasks (depsOf tasks)).filter (fun p => p.2 = 0)).map Prod.fst) []
      (KInv_init tasks hnd) (le_refl _)
  refine ⟨d', i', o', hinv, ?_⟩
  simp only [topological_order, heq]

theorem remaining_mem (i' : List (String × Int)) (o' : List String)
    (hiknd : (i'.map Prod.fst).Nodup) (x : String) :
    (x ∈ (i'.filter (fun p => decide (0 < p.2) && !(o'.contains p.1))).map Prod.fst) ↔
      (∃ n, aget i' x = some n ∧ 0 < n) ∧ x ∉ o' := by
  constructor
  · intro hx
    obtain ⟨p, hpmem, hpx⟩ := List.mem_map.1 hx
    subst hpx
    have hcond := List.of_mem_filter hpmem
    simp only [Bool.and_eq_true, decide_eq_true_eq, Bool.not_eq_true'] at hcond
    refine ⟨⟨p.2, aget_of_mem_of_nodup hiknd (List.mem_of_mem_filter hpmem), hcond.1⟩, ?_⟩
    intro hmem
    have := hcond.2
    simp [hmem] at this
  · rintro ⟨⟨n, hag, hn⟩, hxo⟩
    refine List.mem_map.2 ⟨(x, n), List.mem_filter.2 ⟨mem_of_aget hag, ?_⟩, rfl⟩
    simp [hn, hxo]

theorem topological_order_perm (tasks : List Task) (hnd : UniqueIds tasks) :
    (topological_order tasks).Perm (tasks.map Task.id) := by
  obtain ⟨d', i', o', hinv, heq⟩ := topo_master tasks hnd
  rw [heq]
  have hiknd : (i'.map Prod.fst).Nodup := by
    rw [hinv.indeg_keys]; exact hinv.ids_nodup
  have hRnd : ((i'.filter (fun p => decide (0 < p.2) && !(o'.contains p.1))).map
      Prod.fst).Nodup := ((List.filter_sublist _).map Prod.fst).nodup hiknd
  have happnd : (o' ++ (i'.filter
      (fun p => decide (0 < p.2) && !(o'.contains p.1))).map Prod.fst).Nodup := by
    rw [List.nodup_append]
    refine ⟨hinv.order_nodup, hRnd, ?_⟩
    intro a ha hb
    exact ((remaining_mem i' o' hiknd a).1 hb).2 ha
  rw [List.perm_ext_iff_of_nodup happnd hnd]
  intro a
  constructor
  · intro ha
    rcases List.mem_append.1 ha with h1 | h1
    · exact hinv.order_ids a h1
    · obtain ⟨⟨n, hag, _⟩, _⟩ := (remaining_mem i' o' hiknd a).1 h1
      rw [← hinv.indeg_keys]
      exact (aget_isSome_iff_mem i' a).1 (by simp [hag])
  · intro ha
    by_cases hao : a ∈ o'
    · exact List.mem_append.2 (Or.inl hao)
    · have hsome : (aget d' a).isSome := by
        rw [aget_isSome_iff_mem, hinv.deps_keys]; exact ha
      obtain ⟨dv, hdv⟩ := Option.isSome_iff_exists.1 hsome
      have hdvne : dv ≠ [] := by
        intro hnil
        subst hnil
        rcases hinv.zero_in a ha hdv with h | h
        · exact hao h
        · exact (List.not_mem_nil a) h
      refine List.mem_append.2 (Or.inr ((remaining_mem i' o' hiknd a).2 ⟨⟨(dv.length : Int), hinv.indeg_val a dv hdv, ?_⟩, hao⟩))
      have : 0 < dv.length := List.length_pos.2 hdvne
      exact_mod_cast this

theorem topo_acyclic_sublist (tasks : List Task) (hnd : UniqueIds tasks)
    (hclosed : DepsClosed tasks) (f : String → Nat) (hf : RankedBy tasks f) :
    ∀ t ∈ tasks, ∀ d ∈ t.dependencies, [d, t.id].Sublist (topological_order tasks) := by
  obtain ⟨d', i', o', hinv, heq⟩ := topo_master tasks hnd
  have hiknd : (i'.map Prod.fst).Nodup := by
    rw [hinv.indeg_keys]; exact hinv.ids_nodup
  have hdeps0 : ∀ t ∈ tasks, (aget (depsOf tasks) t.id).getD [] = t.dependencies.dedup := by
    intro t ht
    rw [depsOf_eq tasks hnd, aget_tasks_map _ tasks hnd ht]
    rfl
  have key : ∀ n, ∀ v, f v = n → v ∈ tasks.map Task.id → v ∈ o' := by
    intro n
    induction n using Nat.strong_induction_on with
    | _ n ih =>
      intro v hfv hvids
      by_contra hvo
      have hsome : (aget d' v).isSome := by
        rw [aget_isSome_iff_mem, hinv.deps_keys]; exact hvids
      obtain ⟨dv, hdv⟩ := Option.isSome_iff_exists.1 hsome
      have hdvne : dv ≠ [] := by
        intro hnil
        subst hnil
        rcases hinv.zero_in v hvids hdv with h | h
        · exact hvo h
        · exact (List.not_mem_nil v) h
      obtain ⟨d, hd⟩ := List.exists_mem_of_ne_nil dv hdvne
      obtain ⟨t, ht, rfl⟩ := List.mem_map.1 hvids
      have hd0 : d ∈ (aget (depsOf tasks) t.id).getD [] := hinv.dv_sub t.id dv hdv hd
      rw [hdeps0 t ht] at hd0
      have hddeps : d ∈ t.dependencies := List.mem_dedup.1 hd0
      have hdo : d ∈ o' :=
        ih (f d) (hfv ▸ hf t ht d hddeps) d rfl (hclosed t ht d hddeps)
      exact (hinv.dv_not_order t.id dv hdv d hd) hdo
  have hall : ∀ v ∈ tasks.map Task.id, v ∈ o' := fun v hv => key (f v) v rfl hv
  have hRnil : (i'.filter
      (fun p => decide (0 < p.2) && !(o'.contains p.1))).map Prod.fst = [] := by
    rw [List.eq_nil_iff_forall_not_mem]
    intro x hx
    obtain ⟨⟨n, hag, _⟩, hxo⟩ := (remaining_mem i' o' hiknd x).1 hx
    refine hxo (hall x ?_)
    rw [← hinv.indeg_keys]
    exact (aget_isSome_iff_mem i' x).1 (by simp [hag])
  have horder : topological_order tasks = o' := by
    rw [heq, hRnil, List.append_nil]
  intro t ht d hd
  rw [horder]
  apply hinv.before t.id (hall t.id (List.mem_map_of_mem _ ht))
  rw [hdeps0 t ht]
  exact List.mem_dedup.2 hd

theorem sublist_pair_indexOf {l : List String} {a b : String} (hnd : l.Nodup)
    (h : [a, b].Sublist l) : l.indexOf a < l.indexOf b := by
  induction l with
  | nil => simp at h
  | cons x xs ih =>
    simp only [List.nodup_cons] at hnd
    cases h with
    | cons _ h' =>
      have ha : a ∈ xs := h'.subset (by simp)
      have hb : b ∈ xs := h'.subset (by simp)
      have hax : x ≠ a := fun hh => hnd.1 (hh ▸ ha)
      have hbx : x ≠ b := fun hh => hnd.1 (hh ▸ hb)
      rw [List.indexOf_cons_ne _ hax, List.indexOf_cons_ne _ hbx]
      exact Nat.succ_lt_succ (ih hnd.2 h')
    | cons₂ _ h' =>
      rw [List.indexOf_cons_self]
      have hb : b ∈ xs := List.singleton_sublist.1 h'
      have hbx : a ≠ b := fun hh => hnd.1 (hh ▸ hb)
      rw [List.indexOf_cons_ne _ hbx]
      exact Nat.succ_pos _

/-! ### The CPM forward pass -/

theorem foldlM_max_some (g : String → Option ℚ) :
    ∀ (dv : List String) (z : ℚ), (∀ d ∈ dv, (g d).isSome) →
      dv.foldlM (fun a d => (g d).map (fun e => max a e)) z =
        some (dv.foldl (fun a d => max a ((g d).getD 0)) z) := by
  intro dv
  induction dv with
  | nil =>
    intro z _
    rfl
  | cons d ds ih =>
    intro z h
    obtain ⟨e, he⟩ := Option.isSome_iff_exists.1 (h d (List.mem_cons_self _ _))
    rw [List.foldlM_cons, List.foldl_cons, he]
    simpa using ih (max z e) (fun x hx => h x (List.mem_cons_of_mem _ hx))

theorem mapM_isSome {α β : Type} (f : α → Option β) :
    ∀ (l : List α), (∀ x ∈ l, (f x).isSome) → ∃ v, l.mapM f = some v := by
  intro l
  induction l with
  | nil => exact fun _ => ⟨[], rfl⟩
  | cons x xs ih =>
    intro h
    obtain ⟨y, hy⟩ := Option.isSome_iff_exists.1 (h x (List.mem_cons_self _ _))
    obtain ⟨ys, hys⟩ := ih (fun z hz => h z (List.mem_cons_of_mem _ hz))
    exact ⟨y :: ys, by rw [List.mapM_cons, hy, hys]; rfl⟩

theorem sublist_pair_before_split :
    ∀ (P : List String) {rest : List String} {d u : String},
      (P ++ u :: rest).Nodup → [d, u].Sublist (P ++ u :: rest) → d ∈ P := by
  intro P
  induction P with
  | nil =>
    intro rest d u hnd h
    exfalso
    simp only [List.nil_append, List.nodup_cons] at hnd
    cases h with
    | cons _ h' => exact hnd.1 (h'.subset (by simp))
    | cons₂ _ h' => exact hnd.1 (List.singleton_sublist.1 h')
  | cons x P' ih =>
    intro rest d u hnd h
    simp only [List.cons_append, List.nodup_cons] at hnd
    cases h with
    | cons _ h' => exact List.mem_cons_of_mem _ (ih hnd.2 h')
    | cons₂ _ h' =>
      exact List.mem_cons_self _ _

theorem foldl_maxg_congr {g g' : String → ℚ} :
    ∀ (l : List String), (∀ d ∈ l, g d = g' d) → ∀ (z : ℚ),
      l.foldl (fun a d => max a (g d)) z = l.foldl (fun a d => max a (g' d)) z := by
  intro l
  induction l with
  | nil => intro _ z; rfl
  | cons d ds ih =>
    intro h z
    rw [List.foldl_cons, List.foldl_cons, h d (List.mem_cons_self _ _)]
    exact ih (fun x hx => h x (List.mem_cons_of_mem _ hx)) _

/-- Invariant of the forward pass: ids processed so far (`P`) carry
`es`/`ef` satisfying the CPM equations, the rest are untouched. -/
def FwdInv (tasks : List Task) (P : List String) (info : List (String × CpmRec)) : Prop :=
  info.map Prod.fst = tasks.map Task.id ∧
  (∀ t ∈ tasks, t.id ∉ P →
    aget info t.id = some ⟨t.duration_hours.getD 0, none, none, none, none⟩) ∧
  (∀ t ∈ tasks, t.id ∈ P → ∃ esv : ℚ,
    aget info t.id = some ⟨t.duration_hours.getD 0, some esv,
      some (esv + t.duration_hours.getD 0), none, none⟩ ∧
    esv = t.dependencies.foldl
      (fun a d => max a (((aget info d).bind CpmRec.ef).getD 0)) 0 ∧
    (∀ d ∈ t.dependencies, ((aget info d).bind CpmRec.ef).isSome))

theorem id_inj (tasks : List Task) (hnd : UniqueIds tasks) {t t' : Task}
    (ht : t ∈ tasks) (ht' : t' ∈ tasks) (h : t.id = t'.id) : t = t' :=
  List.inj_on_of_nodup_map hnd ht ht' h

theorem fwd_loop (tasks : List Task) (hnd : UniqueIds tasks)
    (hbefore : ∀ t ∈ tasks, ∀ d ∈ t.dependencies,
      [d, t.id].Sublist (topological_order tasks)) :
    ∀ (suffix P : List String) (info : List (String × CpmRec)),
      topological_order tasks = P ++ suffix →
      FwdInv tasks P info →
      ∃ info', suffix.foldlM (fwdOne (depsOf tasks)) info = some info' ∧
        FwdInv tasks (P ++ suffix) info' := by
  intro suffix
  induction suffix with
  | nil =>
    intro P info _ hinv
    refine ⟨info, rfl, ?_⟩
    simpa using hinv
  | cons u rest ih =>
    intro P info hsplit hinv
    have hordnd : (topological_order tasks).Nodup :=
      (topological_order_perm tasks hnd).nodup_iff.2 hnd
    have hsplitnd : (P ++ u :: rest).Nodup := hsplit ▸ hordnd
    have huP : u ∉ P := by
      have hdisj := (List.nodup_append.1 hsplitnd).2.2
      exact fun hm => hdisj hm (List.mem_cons_self _ _)
    have huid : u ∈ tasks.map Task.id := by
      have hmem : u ∈ topological_order tasks := by
        rw [hsplit]
        exact List.mem_append_right _ (List.mem_cons_self _ _)
      exact ((topological_order_perm tasks hnd).mem_iff).1 hmem
    obtain ⟨tu, htu, rfl⟩ := List.mem_map.1 huid
    have hdepsP : ∀ d ∈ tu.dependencies, d ∈ P := by
      intro d hd
      apply sublist_pair_before_split P hsplitnd
      rw [← hsplit]
      exact hbefore tu htu d hd
    have hefP : ∀ d ∈ P, ((aget info d).bind CpmRec.ef).isSome := by
      intro d hdP
      have hdid : d ∈ tasks.map Task.id := by
        have hmem : d ∈ topological_order tasks := by
          rw [hsplit]
          exact List.mem_append_left _ hdP
        exact ((topological_order_perm tasks hnd).mem_iff).1 hmem
      obtain ⟨td, htd, rfl⟩ := List.mem_map.1 hdid
      obtain ⟨esv, hrec, _, _⟩ := hinv.2.2 td htd hdP
      rw [hrec]
      rfl
    have hdeps_ag : aget (depsOf tasks) tu.id = some tu.dependencies.dedup := by
      rw [depsOf_eq tasks hnd]
      exact aget_tasks_map _ tasks hnd htu
    have hr0 : aget info tu.id = some ⟨tu.duration_hours.getD 0, none, none, none, none⟩ :=
      hinv.2.1 tu htu huP
    have hfold := foldlM_max_some (fun d => (aget info d).bind CpmRec.ef)
      tu.dependencies.dedup 0
      (fun d hd => hefP d (hdepsP d (List.mem_dedup.1 hd)))
    set dur := tu.duration_hours.getD 0 with hdur
    set esv := tu.dependencies.dedup.foldl
      (fun a d => max a (((aget info d).bind CpmRec.ef).getD 0)) 0 with hesv
    set newrec : CpmRec := ⟨dur, some esv, some (esv + dur), none, none⟩ with hnewrec
    have hfold' : List.foldlM (fun (a : ℚ) d => ((aget info d).bind CpmRec.ef).map
        (fun e => max a e)) (0 : ℚ) tu.dependencies.dedup = some esv := hfold
    have hstep : fwdOne (depsOf tasks) info tu.id = some (dset info tu.id newrec) := by
      unfold fwdOne
      simp only [hdeps_ag, Option.bind_eq_bind, Option.some_bind, hfold', hr0]
      rfl
    have huntouched : ∀ d : String, ((aget info d).bind CpmRec.ef).isSome →
        aget (dset info tu.id newrec) d = aget info d := by
      intro d hs
      have hne : d ≠ tu.id := by
        intro hh
        subst hh
        rw [hr0] at hs
        simp [CpmRec.ef] at hs
      exact aget_dset_ne info tu.id d newrec hne
    have hnewinv : FwdInv tasks (P ++ [tu.id]) (dset info tu.id newrec) := by
      refine ⟨?_, ?_, ?_⟩
      · rw [dset_keys_of_mem info tu.id newrec
          (by rw [hinv.1]; exact List.mem_map_of_mem _ htu)]
        exact hinv.1
      · intro t ht htout
        simp only [List.mem_append, List.mem_singleton, not_or] at htout
        rw [aget_dset_ne info tu.id t.id newrec htout.2]
        exact hinv.2.1 t ht htout.1
      · intro t ht htin
        rcases List.mem_append.1 htin with htP | htu'
        · obtain ⟨esv', hrec, heq, hsome⟩ := hinv.2.2 t ht htP
          have htne : t.id ≠ tu.id := fun hh => huP (hh ▸ htP)
          refine ⟨esv', ?_, ?_, ?_⟩
          · rw [aget_dset_ne info tu.id t.id newrec htne]
            exact hrec
          · rw [heq]
            exact (foldl_maxg_congr t.dependencies
              (fun d hd => by rw [huntouched d (hsome d hd)]) 0).symm
          · intro d hd
            rw [huntouched d (hsome d hd)]
            exact hsome d hd
        · obtain rfl : t = tu :=
            id_inj tasks hnd ht htu (List.mem_singleton.1 htu')
          have hefdeps : ∀ d ∈ t.dependencies, ((aget info d).bind CpmRec.ef).isSome :=
            fun d hd => hefP d (hdepsP d hd)
          refine ⟨esv, aget_dset_self info t.id newrec, ?_, ?_⟩
          · rw [hesv, foldl_maxg_dedup
              (fun d => ((aget info d).bind CpmRec.ef).getD 0) t.dependencies 0]
            exact (foldl_maxg_congr t.dependencies
              (fun d hd => by rw [huntouched d (hefdeps d hd)]) 0).symm
          · intro d hd
            rw [huntouched d (hefdeps d hd)]
            exact hefdeps d hd
    have hsplit' : topological_order tasks = (P ++ [tu.id]) ++ rest := by
      rw [hsplit]
      simp
    obtain ⟨info', heq', hinv'⟩ := ih (P ++ [tu.id]) (dset info tu.id newrec) hsplit' hnewinv
    refine ⟨info', ?_, ?_⟩
    · rw [List.foldlM_cons, hstep]
      simpa using heq'
    · have hms : (P ++ [tu.id]) ++ rest = P ++ tu.id :: rest := by simp
      rwa [hms] at hinv'

/-! ### The CPM backward pass -/

theorem bwd_loop (deps : List (String × List String)) (pf : ℚ) :
    ∀ (rev : List String) (info : List (String × CpmRec)),
      (∀ v ∈ rev, (aget info v).isSome) →
      ∃ info', rev.foldlM (bwdOne deps pf) info = some info' ∧
        info'.map Prod.fst = info.map Prod.fst ∧
        (∀ v r', aget info' v = some r' → ∃ r, aget info v = some r ∧
          r'.duration = r.duration ∧ r'.es = r.es ∧ r'.ef = r.ef) ∧
        (∀ v ∈ rev, ∃ r, aget info' v = some r ∧
          ∃ lfv, r.lf = some lfv ∧ r.ls = some (lfv - r.duration)) ∧
        (∀ v, v ∉ rev → aget info' v = aget info v) := by
  intro rev
  induction rev with
  | nil =>
    intro info _
    exact ⟨info, rfl, rfl, fun v r' h => ⟨r', h, rfl, rfl, rfl⟩, by simp,
      fun v _ => rfl⟩
  | cons u rest ih =>
    intro info hsome
    obtain ⟨r0, hr0⟩ := Option.isSome_iff_exists.1 (hsome u (List.mem_cons_self _ _))
    obtain ⟨lfv, hstep⟩ : ∃ lfv : ℚ, bwdOne deps pf info u =
        some (dset info u { r0 with ls := some (lfv - r0.duration), lf := some lfv }) := by
      refine ⟨minD (info.filterMap
        (fun p => if u ∈ (aget deps p.1).getD [] then p.2.ls else none)) pf, ?_⟩
      unfold bwdOne
      simp only [hr0, Option.bind_eq_bind, Option.some_bind]
      rfl
    have hmemu : u ∈ info.map Prod.fst := (aget_isSome_iff_mem info u).1 (by simp [hr0])
    have hkeys1 : ∀ r : CpmRec, (dset info u r).map Prod.fst = info.map Prod.fst :=
      fun r => dset_keys_of_mem info u r hmemu
    have hrest_some : ∀ r : CpmRec, ∀ v ∈ rest, (aget (dset info u r) v).isSome := by
      intro r v hv
      rw [aget_isSome_iff_mem, hkeys1 r, ← aget_isSome_iff_mem]
      exact hsome v (List.mem_cons_of_mem _ hv)
    obtain ⟨info', heq, hkeys, hpres, hshape, hsame⟩ :=
      ih (dset info u { r0 with ls := some (lfv - r0.duration), lf := some lfv })
        (hrest_some _)
    refine ⟨info', ?_, hkeys.trans (hkeys1 _), ?_, ?_, ?_⟩
    · rw [List.foldlM_cons, hstep]
      simpa using heq
    · intro v r' h
      obtain ⟨r1, h1, hd, hes, hef⟩ := hpres v r' h
      by_cases hv : v = u
      · subst hv
        rw [aget_dset_self] at h1
        obtain rfl : ({ r0 with ls := some (lfv - r0.duration), lf := some lfv } : CpmRec) = r1 :=
          Option.some.inj h1
        exact ⟨r0, hr0, hd, hes, hef⟩
      · rw [aget_dset_ne info u v _ hv] at h1
        exact ⟨r1, h1, hd, hes, hef⟩
    · intro v hv
      rcases List.mem_cons.1 hv with h1 | h1
      · subst h1
        by_cases hvr : v ∈ rest
        · exact hshape v hvr
        · refine ⟨{ r0 with ls := some (lfv - r0.duration), lf := some lfv }, ?_, lfv, rfl, rfl⟩
          rw [hsame v hvr]
          exact aget_dset_self _ _ _
      · exact hshape v h1
    · intro v hv
      simp only [List.mem_cons, not_or] at hv
      rw [hsame v hv.2]
      exact aget_dset_ne info u v _ hv.1

/-- Totality and the per-task equations of `compute_cpm_baseline` on
acyclic, closed, uniquely-identified task lists. -/
theorem compute_cpm_spec_aux (tasks : List Task) (hnd : UniqueIds tasks)
    (hclosed : DepsClosed tasks) (f : String → Nat) (hf : RankedBy tasks f) :
    ∃ info, compute_cpm_baseline tasks = some info ∧
      info.map Prod.fst = tasks.map Task.id ∧
      ∀ t ∈ tasks, ∃ r : CpmRec, aget info t.id = some r ∧
        r.duration = t.duration_hours.getD 0 ∧
        (∃ esv, r.es = some esv ∧
          r.ef = some (esv + t.duration_hours.getD 0) ∧
          esv = t.dependencies.foldl
            (fun a d => max a (((aget info d).bind CpmRec.ef).getD 0)) 0 ∧
          (∀ d ∈ t.dependencies, ((aget info d).bind CpmRec.ef).isSome)) ∧
        (∃ lfv, r.lf = some lfv ∧ r.ls = some (lfv - r.duration)) := by
  have hbefore := topo_acyclic_sublist tasks hnd hclosed f hf
  have hinit : FwdInv tasks [] (infoInit tasks) := by
    have hii : infoInit tasks = tasks.map
        (fun t => (t.id, (⟨t.duration_hours.getD 0, none, none, none, none⟩ : CpmRec))) := by
      unfold infoInit
      rw [foldl_dset_fresh _ tasks [] hnd (by simp)]
      simp
    refine ⟨?_, ?_, ?_⟩
    · rw [hii, keys_tasks_map]
    · intro t ht _
      rw [hii]
      exact aget_tasks_map _ tasks hnd ht
    · intro t _ h
      exact absurd h (List.not_mem_nil _)
  obtain ⟨info1, hfwd, hinv1⟩ :=
    fwd_loop tasks hnd hbefore (topological_order tasks) [] (infoInit tasks) rfl hinit
  rw [List.nil_append] at hinv1
  have htid_order : ∀ t ∈ tasks, t.id ∈ topological_order tasks := fun t ht =>
    ((topological_order_perm tasks hnd).mem_iff).2 (List.mem_map_of_mem _ ht)
  have hkeys1 : info1.map Prod.fst = tasks.map Task.id := hinv1.1
  have hkeys1nd : (info1.map Prod.fst).Nodup := by rw [hkeys1]; exact hnd
  have h_entries : ∀ p ∈ info1, (p.2.ef).isSome := by
    intro p hp
    have hag : aget info1 p.1 = some p.2 := aget_of_mem_of_nodup hkeys1nd hp
    have hpid : p.1 ∈ tasks.map Task.id := by
      rw [← hkeys1]
      exact List.mem_map_of_mem _ hp
    obtain ⟨t, ht, hteq⟩ := List.mem_map.1 hpid
    obtain ⟨esv, hrec, _, _⟩ := hinv1.2.2 t ht (htid_order t ht)
    rw [hteq, hag] at hrec
    rw [Option.some.inj hrec]
    rfl
  obtain ⟨efs, hmapM⟩ := mapM_isSome (fun p => p.2.ef) info1 h_entries
  have hrev_some : ∀ v ∈ (topological_order tasks).reverse, (aget info1 v).isSome := by
    intro v hv
    rw [List.mem_reverse] at hv
    rw [aget_isSome_iff_mem, hkeys1]
    exact ((topological_order_perm tasks hnd).mem_iff).1 hv
  obtain ⟨info2, hbwd, hkeys2, hpres2, hshape2, _⟩ :=
    bwd_loop (depsOf tasks) (maxD efs 0) (topological_order tasks).reverse info1 hrev_some
  have hbind : ∀ d, (aget info2 d).bind CpmRec.ef = (aget info1 d).bind CpmRec.ef := by
    intro d
    cases h2 : aget info2 d with
    | none =>
      have hn1 : aget info1 d = none := by
        apply aget_eq_none_of_not_mem
        rw [← hkeys2, ← aget_isSome_iff_mem, h2]
        simp
      rw [hn1]
    | some r' =>
      obtain ⟨r1, h1, _, _, hef⟩ := hpres2 d r' h2
      rw [h1]
      simp [hef]
  refine ⟨info2, ?_, hkeys2.trans hkeys1, ?_⟩
  · unfold compute_cpm_baseline
    simp only [hfwd, Option.bind_eq_bind, Option.some_bind, hmapM, hbwd]
  · intro t ht
    obtain ⟨r2, hr2, lfv, hlf, hls⟩ :=
      hshape2 t.id (List.mem_reverse.2 (htid_order t ht))
    obtain ⟨r1, hr1, hdur21, hes21, hef21⟩ := hpres2 t.id r2 hr2
    obtain ⟨esv, hrec1, hesveq, hsome1⟩ := hinv1.2.2 t ht (htid_order t ht)
    rw [hr1] at hrec1
    obtain rfl := Option.some.inj hrec1
    refine ⟨r2, hr2, by rw [hdur21], ⟨esv, by rw [hes21], by rw [hef21], ?_, ?_⟩,
      lfv, hlf, hls⟩
    · rw [hesveq]
      exact (foldl_maxg_congr t.dependencies (fun d _ => by rw [hbind d]) 0).symm
    · intro d hd
      rw [hbind d]
      exact hsome1 d hd

/-! ### Lemmas about the leveling helpers -/

theorem estOfDeps_isSome (schedule : List (String × Entry)) (base : List (String × CpmRec)) :
    ∀ (ds : List String) (est : ℚ),
      (∀ d ∈ ds, (aget schedule d).isSome ∨ ((aget base d).bind CpmRec.ef).isSome) →
      ∃ r, estOfDeps schedule base ds est = some r ∧ est ≤ r ∧
        (∀ d ∈ ds, ∀ e, aget schedule d = some e → e.finish ≤ r) := by
  intro ds
  induction ds with
  | nil =>
    intro est _
    exact ⟨est, rfl, le_refl _, by simp⟩
  | cons d rest ih =>
    intro est h
    cases hd : aget schedule d with
    | some e =>
      obtain ⟨r, hr, hler, hbound⟩ :=
        ih (max est e.finish) (fun x hx => h x (List.mem_cons_of_mem _ hx))
      refine ⟨r, by simp [estOfDeps, hd, hr], le_trans (le_max_left _ _) hler, ?_⟩
      intro d' hd' e' he'
      rcases List.mem_cons.1 hd' with h1 | h1
      · subst h1
        rw [hd] at he'
        obtain rfl := Option.some.inj he'
        exact le_trans (le_max_right _ _) hler
      · exact hbound d' h1 e' he'
    | none =>
      cases hb : (aget base d).bind CpmRec.ef with
      | none =>
        exfalso
        rcases h d (List.mem_cons_self _ _) with hs | hs
        · rw [hd] at hs
          simp at hs
        · rw [hb] at hs
          simp at hs
      | some efd =>
        obtain ⟨r, hr, hler, hbound⟩ :=
          ih (max est efd) (fun x hx => h x (List.mem_cons_of_mem _ hx))
        refine ⟨r, by simp [estOfDeps, hd, hb, hr], le_trans (le_max_left _ _) hler, ?_⟩
        intro d' hd' e' he'
        rcases List.mem_cons.1 hd' with h1 | h1
        · subst h1
          rw [hd] at he'
          cases he'
        · exact hbound d' h1 e' he'

theorem countP_lt_of_strict {α : Type} (p q : α → Bool) :
    ∀ (l : List α), (∀ x ∈ l, p x = true → q x = true) →
      ∀ x ∈ l, q x = true → p x = false → l.countP p < l.countP q := by
  intro l
  induction l with
  | nil =>
    intro _ x hx
    exact absurd hx (List.not_mem_nil x)
  | cons y ys ih =>
    intro himp x hx hqx hpx
    rw [List.countP_cons, List.countP_cons]
    rcases List.mem_cons.1 hx with h1 | h1
    · subst h1
      have hmono := List.countP_mono_left (l := ys)
        (fun z hz => himp z (List.mem_cons_of_mem _ hz))
      simp only [hpx, hqx]
      simp only [Bool.false_eq_true, if_false, if_true]
      omega
    · have hstrict := ih (fun z hz => himp z (List.mem_cons_of_mem _ hz)) x h1 hqx hpx
      have hhead : (if p y = true then 1 else 0) ≤ (if q y = true then 1 else 0) := by
        by_cases hpy : p y = true
        · rw [if_pos hpy, if_pos (himp y (List.mem_cons_self _ _) hpy)]
        · rw [if_neg hpy]
          omega
      omega

theorem findStart_ge (scheduled : List CatRec) (cat : String) (cap : Int) (dur : ℚ) :
    ∀ (fuel : Nat) (start : ℚ), start ≤ findStart scheduled cat cap dur fuel start := by
  intro fuel
  induction fuel with
  | zero =>
    intro start
    simp [findStart]
  | succ n ih =>
    intro start
    unfold findStart
    by_cases hg : 0 < dur ∧ cap ≤ (cat_active_at scheduled cat start : Int)
    · rw [if_pos hg]
      cases hm : (scheduled.filter
          (fun r => decide (r.cat = cat ∧ start < r.finish))).map CatRec.finish with
      | nil => exact ih start
      | cons f fs =>
        have hstart : start ≤ fs.foldl (fun a b => min a b) f := by
          have hmm : fs.foldl (fun a b => min a b) f ∈ (scheduled.filter
              (fun r => decide (r.cat = cat ∧ start < r.finish))).map CatRec.finish := by
            rw [hm]
            exact foldl_min_mem f fs
          obtain ⟨rec, hrec, hfin⟩ := List.mem_map.1 hmm
          have hcond := List.of_mem_filter hrec
          simp only [decide_eq_true_eq] at hcond
          rw [← hfin]
          exact le_of_lt hcond.2
        exact le_trans hstart (ih _)
    · rw [if_neg hg]

theorem findStart_no_conflict (scheduled : List CatRec) (cat : String) (cap : Int)
    (dur : ℚ) (hcap : 1 ≤ cap) :
    ∀ (fuel : Nat) (start : ℚ),
      (scheduled.filter (fun r => decide (r.cat = cat ∧ start < r.finish))).length < fuel →
      ¬(0 < dur ∧ cap ≤ (cat_active_at scheduled cat
          (findStart scheduled cat cap dur fuel start) : Int)) := by
  intro fuel
  induction fuel with
  | zero =>
    intro start h
    simp at h
  | succ n ih =>
    intro start hlen
    unfold findStart
    by_cases hg : 0 < dur ∧ cap ≤ (cat_active_at scheduled cat start : Int)
    · rw [if_pos hg]
      have hpos : 0 < cat_active_at scheduled cat start := by
        have h1 : (1 : Int) ≤ (cat_active_at scheduled cat start : Int) :=
          le_trans hcap hg.2
        exact_mod_cast lt_of_lt_of_le zero_lt_one h1
      obtain ⟨rec, hrecmem, hcat, hst, hfin⟩ :
          ∃ rec ∈ scheduled, rec.cat = cat ∧ rec.start < start ∧ start < rec.finish := by
        unfold cat_active_at at hpos
        obtain ⟨rec, hrec⟩ := List.exists_mem_of_ne_nil _
          (List.ne_nil_of_length_pos hpos)
        have h1 := List.mem_of_mem_filter hrec
        have h2 := List.of_mem_filter hrec
        simp only [decide_eq_true_eq] at h2
        exact ⟨rec, h1, h2.1, h2.2.1, h2.2.2⟩
      have hrecf : rec ∈ scheduled.filter
          (fun r => decide (r.cat = cat ∧ start < r.finish)) :=
        List.mem_filter.2 ⟨hrecmem, by simp [hcat, hfin]⟩
      cases hm : (scheduled.filter
          (fun r => decide (r.cat = cat ∧ start < r.finish))).map CatRec.finish with
      | nil =>
        exfalso
        have : rec.finish ∈ (scheduled.filter
            (fun r => decide (r.cat = cat ∧ start < r.finish))).map CatRec.finish :=
          List.mem_map_of_mem _ hrecf
        rw [hm] at this
        exact (List.not_mem_nil _) this
      | cons f fs =>
        apply ih
        have hmin_mem : fs.foldl (fun a b => min a b) f ∈ (scheduled.filter
            (fun r => decide (r.cat = cat ∧ start < r.finish))).map CatRec.finish := by
          rw [hm]
          exact foldl_min_mem f fs
        obtain ⟨rec0, hrec0, hfin0⟩ := List.mem_map.1 hmin_mem
        have hcond0 := List.of_mem_filter hrec0
        simp only [decide_eq_true_eq] at hcond0
        have hlt : start < fs.foldl (fun a b => min a b) f := by
          rw [← hfin0]
          exact hcond0.2
        have hstrict : (scheduled.filter (fun r => decide (r.cat = cat ∧
            fs.foldl (fun a b => min a b) f < r.finish))).length <
            (scheduled.filter (fun r => decide (r.cat = cat ∧ start < r.finish))).length := by
          rw [← List.countP_eq_length_filter, ← List.countP_eq_length_filter]
          apply countP_lt_of_strict _ _ scheduled ?_ rec0 (List.mem_of_mem_filter hrec0) ?_ ?_
          · intro x _ hx
            simp only [decide_eq_true_eq] at hx ⊢
            exact ⟨hx.1, lt_trans hlt hx.2⟩
          · simp only [decide_eq_true_eq]
            exact ⟨hcond0.1, hcond0.2⟩
          · simp only [decide_eq_false_iff_not, not_and, not_lt]
            intro _
            rw [← hfin0]
        omega
    · rw [if_neg hg]
      exact hg

theorem levelStart_ge (pool : Bool) (caps : List (String × Int)) (scheduled : List CatRec)
    (busy : List (String × ℚ)) (t : Task) (dur est : ℚ) :
    est ≤ levelStart pool caps scheduled busy t dur est := by
  unfold levelStart
  by_cases hfree : t.crew_category = none ∧ t.crew_code = none
  · rw [if_pos hfree]
  · rw [if_neg hfree]
    cases pool with
    | true => exact findStart_ge _ _ _ _ _ _
    | false => exact le_max_left _ _

theorem levelStart_exact (caps : List (String × Int)) (scheduled : List CatRec)
    (busy : List (String × ℚ)) (t : Task) (dur est : ℚ)
    (h : ¬(t.crew_category = none ∧ t.crew_code = none)) :
    levelStart false caps scheduled busy t dur est =
      max est (dgetQ busy (t.crew_code.getD "UNSPEC")) := by
  unfold levelStart
  rw [if_neg h]
  rfl

theorem levelStart_free (pool : Bool) (caps : List (String × Int)) (scheduled : List CatRec)
    (busy : List (String × ℚ)) (t : Task) (dur est : ℚ)
    (h : t.crew_category = none ∧ t.crew_code = none) :
    levelStart pool caps scheduled busy t dur est = est := by
  unfold levelStart
  rw [if_pos h]

theorem aget_dset_isSome {α : Type} (m : List (String × α)) (k : String) (v : α)
    (k' : String) : (aget (dset m k v) k').isSome ↔ (k' = k ∨ (aget m k').isSome) := by
  by_cases h : k' = k
  · subst h
    simp [aget_dset_self]
  · rw [aget_dset_ne _ _ _ _ h]
    simp [h]

/-- One unfolding step of the main leveling loop, once the two fallible
lookups are known to succeed. -/
theorem levelLoop_cons (base : List (String × CpmRec)) (pool : Bool)
    (caps : List (String × Int)) (t : Task) (rest : List Task)
    (schedule : List (String × Entry)) (scheduled : List CatRec)
    (busy : List (String × ℚ)) (est0 es : ℚ)
    (h0 : estOfDeps schedule base t.dependencies 0 = some est0)
    (hes : (aget base t.id).bind CpmRec.es = some es) :
    levelLoop base pool caps (t :: rest) schedule scheduled busy =
      (if pool then
        levelLoop base pool caps rest
          (dset schedule t.id ⟨t.name, t.sectionLabel, t.subsectionLabel,
            levelStart pool caps scheduled busy t (t.duration_hours.getD 0) (max est0 es),
            levelStart pool caps scheduled busy t (t.duration_hours.getD 0) (max est0 es) +
              t.duration_hours.getD 0,
            t.duration_hours.getD 0, t.crew_code, t.crew_category⟩)
          (scheduled ++ [⟨t.crew_category.getD "UNSPEC",
            levelStart pool caps scheduled busy t (t.duration_hours.getD 0) (max est0 es),
            levelStart pool caps scheduled busy t (t.duration_hours.getD 0) (max est0 es) +
              t.duration_hours.getD 0⟩]) busy
      else
        levelLoop base pool caps rest
          (dset schedule t.id ⟨t.name, t.sectionLabel, t.subsectionLabel,
            levelStart pool caps scheduled busy t (t.duration_hours.getD 0) (max est0 es),
            levelStart pool caps scheduled busy t (t.duration_hours.getD 0) (max est0 es) +
              t.duration_hours.getD 0,
            t.duration_hours.getD 0, t.crew_code, t.crew_category⟩)
          scheduled
          (dset busy (t.crew_code.getD "UNSPEC")
            (levelStart pool caps scheduled busy t (t.duration_hours.getD 0) (max est0 es) +
              t.duration_hours.getD 0))) := by
  conv_lhs => rw [levelLoop]
  simp only [h0, hes, Option.bind_eq_bind, Option.some_bind]

theorem levelLoop_total (base : List (String × CpmRec)) (pool : Bool)
    (caps : List (String × Int)) :
    ∀ (ord : List Task) (schedule : List (String × Entry)) (scheduled : List CatRec)
      (busy : List (String × ℚ)),
      (∀ t ∈ ord, ((aget base t.id).bind CpmRec.es).isSome) →
      (∀ t ∈ ord, ∀ d ∈ t.dependencies,
        (aget schedule d).isSome ∨ ((aget base d).bind CpmRec.ef).isSome) →
      ∃ s, levelLoop base pool caps ord schedule scheduled busy = some s ∧
        (∀ k, (aget schedule k).isSome → (aget s k).isSome) ∧
        (∀ t ∈ ord, (aget s t.id).isSome) := by
  intro ord
  induction ord with
  | nil =>
    intro schedule scheduled busy _ _
    exact ⟨schedule, rfl, fun k h => h, by simp⟩
  | cons t rest ih =>
    intro schedule scheduled busy hes hdep
    obtain ⟨est0, h0, _, _⟩ := estOfDeps_isSome schedule base t.dependencies 0
      (hdep t (List.mem_cons_self _ _))
    obtain ⟨es, hesv⟩ := Option.isSome_iff_exists.1 (hes t (List.mem_cons_self _ _))
    have hdep' : ∀ (e : Entry), ∀ s ∈ rest, ∀ d ∈ s.dependencies,
        (aget (dset schedule t.id e) d).isSome ∨
        ((aget base d).bind CpmRec.ef).isSome := by
      intro e s hs d hd
      rcases hdep s (List.mem_cons_of_mem _ hs) d hd with h1 | h1
      · exact Or.inl ((aget_dset_isSome schedule t.id e d).2 (Or.inr h1))
      · exact Or.inr h1
    have hes' : ∀ s ∈ rest, ((aget base s.id).bind CpmRec.es).isSome :=
      fun s hs => hes s (List.mem_cons_of_mem _ hs)
    rw [levelLoop_cons base pool caps t rest schedule scheduled busy est0 es h0 hesv]
    cases pool with
    | true =>
      rw [if_pos rfl]
      obtain ⟨s, hs, hkeep, hall⟩ := ih _ _ _ hes' (hdep' _)
      refine ⟨s, hs, ?_, ?_⟩
      · intro k hk
        exact hkeep k ((aget_dset_isSome schedule t.id _ k).2 (Or.inr hk))
      · intro s' hs'
        rcases List.mem_cons.1 hs' with h1 | h1
        · subst h1
          exact hkeep s'.id ((aget_dset_isSome schedule s'.id _ s'.id).2 (Or.inl rfl))
        · exact hall s' h1
    | false =>
      rw [if_neg (by simp)]
      obtain ⟨s, hs, hkeep, hall⟩ := ih _ _ _ hes' (hdep' _)
      refine ⟨s, hs, ?_, ?_⟩
      · intro k hk
        exact hkeep k ((aget_dset_isSome schedule t.id _ k).2 (Or.inr hk))
      · intro s' hs'
        rcases List.mem_cons.1 hs' with h1 | h1
        · subst h1
          exact hkeep s'.id ((aget_dset_isSome schedule s'.id _ s'.id).2 (Or.inl rfl))
        · exact hall s' h1

/-! ### The processing order of `level_resources` -/

theorem keyLe_total (a b : ℚ × Int × String) : keyLe a b ∨ keyLe b a := by
  unfold keyLe
  rcases lt_trichotomy a.1 b.1 with h1 | h1 | h1
  · exact Or.inl (Or.inl h1)
  · rcases lt_trichotomy a.2.1 b.2.1 with h2 | h2 | h2
    · exact Or.inl (Or.inr ⟨h1, Or.inl h2⟩)
    · rcases lt_trichotomy a.2.2 b.2.2 with h3 | h3 | h3
      · exact Or.inl (Or.inr ⟨h1, Or.inr ⟨h2, Or.inl h3⟩⟩)
      · exact Or.inl (Or.inr ⟨h1, Or.inr ⟨h2, Or.inr h3⟩⟩)
      · exact Or.inr (Or.inr ⟨h1.symm, Or.inr ⟨h2.symm, Or.inl h3⟩⟩)
    · exact Or.inr (Or.inr ⟨h1.symm, Or.inl h2⟩)
  · exact Or.inr (Or.inl h1)

theorem keyLe_trans {a b c : ℚ × Int × String} (hab : keyLe a b) (hbc : keyLe b c) :
    keyLe a c := by
  unfold keyLe at hab hbc ⊢
  rcases hab with h1 | ⟨e1, hab2⟩
  · rcases hbc with h2 | ⟨e2, _⟩
    · exact Or.inl (lt_trans h1 h2)
    · exact Or.inl (e2 ▸ h1)
  · rcases hbc with h2 | ⟨e2, hbc2⟩
    · exact Or.inl (e1 ▸ h2)
    · refine Or.inr ⟨e1.trans e2, ?_⟩
      rcases hab2 with h3 | ⟨f1, hab3⟩
      · rcases hbc2 with h4 | ⟨f2, _⟩
        · exact Or.inl (lt_trans h3 h4)
        · exact Or.inl (f2 ▸ h3)
      · rcases hbc2 with h4 | ⟨f2, hbc3⟩
        · exact Or.inl (f1 ▸ h4)
        · refine Or.inr ⟨f1.trans f2, ?_⟩
          rcases hab3 with h5 | h5
          · rcases hbc3 with h6 | h6
            · exact Or.inl (lt_trans h5 h6)
            · exact Or.inl (h6 ▸ h5)
          · rcases hbc3 with h6 | h6
            · exact Or.inl (h5 ▸ h6)
            · exact Or.inr (h5.trans h6)

theorem keyLe_fst_le {a b : ℚ × Int × String} (h : keyLe a b) : a.1 ≤ b.1 := by
  rcases h with h1 | ⟨e1, _⟩
  · exact le_of_lt h1
  · exact le_of_eq e1

instance taskKeyLe.total : IsTotal (Task × (ℚ × Int × String)) taskKeyLe :=
  ⟨fun a b => keyLe_total a.2 b.2⟩

instance taskKeyLe.trans : IsTrans (Task × (ℚ × Int × String)) taskKeyLe :=
  ⟨fun _ _ _ hab hbc => keyLe_trans hab hbc⟩

theorem mapM_key_spec (base : List (String × CpmRec)) :
    ∀ (tasks : List Task) (pairs : List (Task × (ℚ × Int × String))),
      tasks.mapM (fun t => ((aget base t.id).bind CpmRec.es).map
        (fun es => (t, (es, t.planned_day, t.name)))) = some pairs →
      pairs.map Prod.fst = tasks ∧ ∀ p ∈ pairs, ∃ esv,
        (aget base p.1.id).bind CpmRec.es = some esv ∧
        p.2 = (esv, p.1.planned_day, p.1.name) := by
  intro tasks
  induction tasks with
  | nil =>
    intro pairs h
    simp only [List.mapM_nil] at h
    obtain rfl : [] = pairs := Option.some.inj h
    exact ⟨rfl, by simp⟩
  | cons t rest ih =>
    intro pairs h
    rw [List.mapM_cons] at h
    cases hes : (aget base t.id).bind CpmRec.es with
    | none =>
      rw [hes] at h
      simp at h
    | some esv =>
      rw [hes] at h
      cases hrest : rest.mapM (fun t => ((aget base t.id).bind CpmRec.es).map
          (fun es => (t, (es, t.planned_day, t.name)))) with
      | none =>
        rw [hrest] at h
        simp at h
      | some ys =>
        rw [hrest] at h
        simp only [Option.map_some', Option.some_bind, Option.bind_eq_bind] at h
        obtain rfl : (t, (esv, t.planned_day, t.name)) :: ys = pairs := by
          simpa using h
        obtain ⟨hmap, hall⟩ := ih ys hrest
        refine ⟨by simp [hmap], ?_⟩
        intro p hp
        rcases List.mem_cons.1 hp with h1 | h1
        · subst h1
          exact ⟨esv, hes, rfl⟩
        · exact hall p h1

theorem levelOrder_some (tasks : List Task) (base : List (String × CpmRec))
    (ord : List (Task × (ℚ × Int × String)))
    (h : levelOrder tasks base = some ord) :
    (ord.map Prod.fst).Perm tasks ∧
    List.Sorted taskKeyLe ord ∧
    ∀ p ∈ ord, ∃ esv, (aget base p.1.id).bind CpmRec.es = some esv ∧
      p.2 = (esv, p.1.planned_day, p.1.name) := by
  unfold levelOrder at h
  obtain ⟨pairs, hpairs, hsort⟩ := Option.map_eq_some'.1 h
  obtain ⟨hmap, hall⟩ := mapM_key_spec base tasks pairs hpairs
  have hperm : ord.Perm pairs := hsort ▸ List.perm_insertionSort taskKeyLe pairs
  refine ⟨?_, ?_, ?_⟩
  · rw [← hmap]
    exact hperm.map Prod.fst
  · rw [← hsort]
    exact List.sorted_insertionSort taskKeyLe pairs
  · intro p hp
    exact hall p (hperm.mem_iff.1 hp)

theorem level_resources_total (tasks : List Task) (base : List (String × CpmRec))
    (pool : Bool) (caps : List (String × Int))
    (hes : ∀ t ∈ tasks, ((aget base t.id).bind CpmRec.es).isSome)
    (hef : ∀ t ∈ tasks, ∀ d ∈ t.dependencies, ((aget base d).bind CpmRec.ef).isSome) :
    ∃ s, level_resources tasks base pool caps = some s ∧
      ∀ t ∈ tasks, (aget s t.id).isSome := by
  obtain ⟨pairs, hpairs⟩ := mapM_isSome
    (fun t => ((aget base t.id).bind CpmRec.es).map
      (fun es => (t, (es, t.planned_day, t.name)))) tasks
    (fun t ht => by
      obtain ⟨esv, hesv⟩ := Option.isSome_iff_exists.1 (hes t ht)
      simp [hesv])
  have hord : levelOrder tasks base = some (List.insertionSort taskKeyLe pairs) := by
    unfold levelOrder
    rw [hpairs]
    rfl
  obtain ⟨hperm, _, _⟩ := levelOrder_some tasks base _ hord
  have hmem : ∀ t ∈ (List.insertionSort taskKeyLe pairs).map Prod.fst, t ∈ tasks :=
    fun t ht => hperm.mem_iff.1 ht
  obtain ⟨s, hs, _, hall⟩ := levelLoop_total base pool caps
    ((List.insertionSort taskKeyLe pairs).map Prod.fst) [] [] []
    (fun t ht => hes t (hmem t ht))
    (fun t ht d hd => Or.inr (hef t (hmem t ht) d hd))
  refine ⟨s, ?_, ?_⟩
  · unfold level_resources
    simp only [hord, Option.bind_eq_bind, Option.some_bind]
    exact hs
  · intro t ht
    exact hall t (hperm.mem_iff.2 ht)

/-! ### Exact-mode (crew-code) serialization -/

/-- Pairwise disjointness of the `[start, finish)` intervals of the
schedule entries whose effective crew code (`crew_code or "UNSPEC"`) is `c`. -/
def ExactDisj (c : String) (s : List (String × Entry)) : Prop :=
  ∀ tid1 e1 tid2 e2, tid1 ≠ tid2 → aget s tid1 = some e1 → aget s tid2 = some e2 →
    e1.crew_code.getD "UNSPEC" = c → e2.crew_code.getD "UNSPEC" = c →
    e1.finish ≤ e2.start ∨ e2.finish ≤ e1.start

/-- Every already-scheduled `c`-entry finishes no later than the
`code_busy_until` time of `c`. -/
def ExactBnd (c : String) (s : List (String × Entry)) (busy : List (String × ℚ)) : Prop :=
  ∀ tid e, aget s tid = some e → e.crew_code.getD "UNSPEC" = c →
    e.finish ≤ dgetQ busy c

theorem levelLoop_cons_inv (base : List (String × CpmRec)) (pool : Bool)
    (caps : List (String × Int)) (t : Task) (rest : List Task)
    (schedule : List (String × Entry)) (scheduled : List CatRec)
    (busy : List (String × ℚ)) (s : List (String × Entry))
    (h : levelLoop base pool caps (t :: rest) schedule scheduled busy = some s) :
    ∃ est0 es, estOfDeps schedule base t.dependencies 0 = some est0 ∧
      (aget base t.id).bind CpmRec.es = some es := by
  cases h0 : estOfDeps schedule base t.dependencies 0 with
  | none =>
    exfalso
    conv at h => lhs; rw [levelLoop]
    simp only [h0, Option.bind_eq_bind, Option.none_bind] at h
    cases h
  | some est0 =>
    cases hes : (aget base t.id).bind CpmRec.es with
    | none =>
      exfalso
      conv at h => lhs; rw [levelLoop]
      simp only [h0, hes, Option.bind_eq_bind, Option.some_bind, Option.none_bind] at h
      cases h
    | some es => exact ⟨est0, es, rfl, rfl⟩

theorem levelLoop_exact_serial (base : List (String × CpmRec))
    (caps : List (String × Int)) (c : String) :
    ∀ (ord : List Task) (schedule : List (String × Entry)) (scheduled : List CatRec)
      (busy : List (String × ℚ)) (s : List (String × Entry)),
      levelLoop base false caps ord schedule scheduled busy = some s →
      (∀ t ∈ ord, 0 ≤ t.duration_hours.getD 0) →
      (∀ t ∈ ord, t.crew_code.getD "UNSPEC" = c →
        ¬(t.crew_category = none ∧ t.crew_code = none)) →
      ExactBnd c schedule busy → ExactDisj c schedule →
      ExactDisj c s := by
  intro ord
  induction ord with
  | nil =>
    intro schedule scheduled busy s hlev _ _ _ hdisj
    obtain rfl : schedule = s := Option.some.inj hlev
    exact hdisj
  | cons t rest ih =>
    intro schedule scheduled busy s hlev hdur hc hbnd hdisj
    obtain ⟨est0, es, h0, hesv⟩ := levelLoop_cons_inv base false caps t rest
      schedule scheduled busy s hlev
    rw [levelLoop_cons base false caps t rest schedule scheduled busy est0 es h0 hesv,
      if_neg (by simp)] at hlev
    set st := levelStart false caps scheduled busy t (t.duration_hours.getD 0) (max est0 es)
      with hstdef
    have hdur0 : 0 ≤ t.duration_hours.getD 0 := hdur t (List.mem_cons_self _ _)
    by_cases hcc : t.crew_code.getD "UNSPEC" = c
    · have hnotfree : ¬(t.crew_category = none ∧ t.crew_code = none) :=
        hc t (List.mem_cons_self _ _) hcc
      have hstart_eq : st = max (max est0 es) (dgetQ busy (t.crew_code.getD "UNSPEC")) :=
        levelStart_exact caps scheduled busy t _ _ hnotfree
      have hbusyle : dgetQ busy c ≤ st := by
        rw [hstart_eq, hcc]
        exact le_max_right _ _
      have hbusy' : dgetQ (dset busy (t.crew_code.getD "UNSPEC")
          (st + t.duration_hours.getD 0)) c = st + t.duration_hours.getD 0 := by
        simp only [dgetQ]
        rw [← hcc, aget_dset_self]
        rfl
      refine ih _ _ _ s hlev (fun x hx => hdur x (List.mem_cons_of_mem _ hx))
        (fun x hx => hc x (List.mem_cons_of_mem _ hx)) ?_ ?_
      · intro tid e hag heff
        rw [hbusy']
        by_cases htid : tid = t.id
        · subst htid
          rw [aget_dset_self] at hag
          obtain rfl := (Option.some.inj hag).symm
          exact le_refl _
        · rw [aget_dset_ne _ _ _ _ htid] at hag
          have hold := hbnd tid e hag heff
          calc e.finish ≤ dgetQ busy c := hold
            _ ≤ st := hbusyle
            _ ≤ st + t.duration_hours.getD 0 := le_add_of_nonneg_right hdur0
      · intro tid1 e1 tid2 e2 hne h1 h2 heff1 heff2
        by_cases ht1 : tid1 = t.id
        · subst ht1
          have ht2 : tid2 ≠ t.id := fun hh => hne (hh ▸ rfl)
          rw [aget_dset_self] at h1
          rw [aget_dset_ne _ _ _ _ ht2] at h2
          obtain rfl := (Option.some.inj h1).symm
          refine Or.inr ?_
          calc e2.finish ≤ dgetQ busy c := hbnd tid2 e2 h2 heff2
            _ ≤ _ := hbusyle
        · rw [aget_dset_ne _ _ _ _ ht1] at h1
          by_cases ht2 : tid2 = t.id
          · subst ht2
            rw [aget_dset_self] at h2
            obtain rfl := (Option.some.inj h2).symm
            refine Or.inl ?_
            calc e1.finish ≤ dgetQ busy c := hbnd tid1 e1 h1 heff1
              _ ≤ _ := hbusyle
          · rw [aget_dset_ne _ _ _ _ ht2] at h2
            exact hdisj tid1 e1 tid2 e2 hne h1 h2 heff1 heff2
    · refine ih _ _ _ s hlev (fun x hx => hdur x (List.mem_cons_of_mem _ hx))
        (fun x hx => hc x (List.mem_cons_of_mem _ hx)) ?_ ?_
      · intro tid e hag heff
        have hbusy_same : dgetQ (dset busy (t.crew_code.getD "UNSPEC")
            (levelStart false caps scheduled busy t (t.duration_hours.getD 0) (max est0 es) +
              t.duration_hours.getD 0)) c = dgetQ busy c := by
          simp only [dgetQ]
          rw [aget_dset_ne _ _ _ _ (fun hh => hcc hh.symm)]
        rw [hbusy_same]
        by_cases htid : tid = t.id
        · subst htid
          rw [aget_dset_self] at hag
          obtain rfl := (Option.some.inj hag).symm
          exact absurd heff hcc
        · rw [aget_dset_ne _ _ _ _ htid] at hag
          exact hbnd tid e hag heff
      · intro tid1 e1 tid2 e2 hne h1 h2 heff1 heff2
        by_cases ht1 : tid1 = t.id
        · subst ht1
          rw [aget_dset_self] at h1
          obtain rfl := (Option.some.inj h1).symm
          exact absurd heff1 hcc
        · rw [aget_dset_ne _ _ _ _ ht1] at h1
          by_cases ht2 : tid2 = t.id
          · subst ht2
            rw [aget_dset_self] at h2
            obtain rfl := (Option.some.inj h2).symm
            exact absurd heff2 hcc
          · rw [aget_dset_ne _ _ _ _ ht2] at h2
            exact hdisj tid1 e1 tid2 e2 hne h1 h2 heff1 heff2

/-- In exact crew-code mode, if every task whose effective code is `c` is
resource-constrained (not lacking both identifiers), then the `c`-entries of
the produced schedule are pairwise disjoint. -/
theorem exact_no_overlap (tasks : List Task) (base : List (String × CpmRec))
    (caps : List (String × Int)) (c : String) (s : List (String × Entry))
    (hdur : ∀ t ∈ tasks, 0 ≤ t.duration_hours.getD 0)
    (hc : ∀ t ∈ tasks, t.crew_code.getD "UNSPEC" = c →
      ¬(t.crew_category = none ∧ t.crew_code = none))
    (hs : level_resources tasks base false caps = some s) :
    ExactDisj c s := by
  unfold level_resources at hs
  cases hord : levelOrder tasks base with
  | none =>
    rw [hord] at hs
    cases hs
  | some ord =>
    rw [hord] at hs
    simp only [Option.bind_eq_bind, Option.some_bind] at hs
    obtain ⟨hperm, _, _⟩ := levelOrder_some tasks base ord hord
    exact levelLoop_exact_serial base caps c (ord.map Prod.fst) [] [] [] s hs
      (fun t ht => hdur t (hperm.mem_iff.1 ht))
      (fun t ht => hc t (hperm.mem_iff.1 ht))
      (fun tid e hag => by cases hag)
      (fun tid1 e1 tid2 e2 _ h1 => by cases h1)

/-! ### Dependency precedence of the leveled schedule -/

/-- Every processed task has an entry whose start is bounded below by the
finishes of its dependencies' entries and by its baseline early start. -/
def PrecInv (base : List (String × CpmRec)) (schedule : List (String × Entry))
    (done : List Task) : Prop :=
  ∀ t ∈ done, ∃ e, aget schedule t.id = some e ∧
    (∀ d ∈ t.dependencies, ∃ ed, aget schedule d = some ed ∧ ed.finish ≤ e.start) ∧
    (∃ esv, (aget base t.id).bind CpmRec.es = some esv ∧ esv ≤ e.start)

theorem levelLoop_precedence (base : List (String × CpmRec)) (pool : Bool)
    (caps : List (String × Int)) :
    ∀ (ord done : List Task) (schedule : List (String × Entry))
      (scheduled : List CatRec) (busy : List (String × ℚ)) (s : List (String × Entry)),
      levelLoop base pool caps ord schedule scheduled busy = some s →
      (ord.map Task.id).Nodup →
      (∀ t ∈ ord, t.id ∉ schedule.map Prod.fst) →
      (∀ l1 t l2, ord = l1 ++ t :: l2 → ∀ d ∈ t.dependencies,
        d ∈ schedule.map Prod.fst ∨ d ∈ l1.map Task.id) →
      PrecInv base schedule done →
      PrecInv base s (done ++ ord) := by
  intro ord
  induction ord with
  | nil =>
    intro done schedule scheduled busy s hlev _ _ _ hinv
    obtain rfl : schedule = s := Option.some.inj hlev
    simpa using hinv
  | cons t rest ih =>
    intro done schedule scheduled busy s hlev hnd hfresh hdep hinv
    obtain ⟨est0, es, h0, hesv⟩ := levelLoop_cons_inv base pool caps t rest
      schedule scheduled busy s hlev
    rw [levelLoop_cons base pool caps t rest schedule scheduled busy est0 es h0 hesv] at hlev
    have hdepcond : ∀ d ∈ t.dependencies, (aget schedule d).isSome ∨
        ((aget base d).bind CpmRec.ef).isSome := by
      intro d hd
      rcases hdep [] t rest rfl d hd with h1 | h1
      · exact Or.inl ((aget_isSome_iff_mem schedule d).2 h1)
      · simp at h1
    obtain ⟨r, hr, hle0, hbound⟩ := estOfDeps_isSome schedule base t.dependencies 0 hdepcond
    rw [h0] at hr
    obtain rfl := Option.some.inj hr
    have htid_fresh : t.id ∉ schedule.map Prod.fst := hfresh t (List.mem_cons_self _ _)
    set st := levelStart pool caps scheduled busy t (t.duration_hours.getD 0) (max est0 es)
      with hstdef
    have hst_ge : max est0 es ≤ st := levelStart_ge _ _ _ _ _ _ _
    set e_t : Entry := ⟨t.name, t.sectionLabel, t.subsectionLabel, st,
      st + t.duration_hours.getD 0, t.duration_hours.getD 0,
      t.crew_code, t.crew_category⟩ with hetdef
    have hprec' : PrecInv base (dset schedule t.id e_t) (done ++ [t]) := by
      intro t' ht'
      rcases List.mem_append.1 ht' with h1 | h1
      · obtain ⟨e, he, hdeps, esv, hesv', hesvle⟩ := hinv t' h1
        have ht'ne : t'.id ≠ t.id := by
          intro hh
          exact htid_fresh (hh ▸ (aget_isSome_iff_mem schedule t'.id).1 (by simp [he]))
        refine ⟨e, by rw [aget_dset_ne _ _ _ _ ht'ne]; exact he, ?_, esv, hesv', hesvle⟩
        intro d hd
        obtain ⟨ed, hed, hedle⟩ := hdeps d hd
        have hdne : d ≠ t.id := by
          intro hh
          exact htid_fresh (hh ▸ (aget_isSome_iff_mem schedule d).1 (by simp [hed]))
        exact ⟨ed, by rw [aget_dset_ne _ _ _ _ hdne]; exact hed, hedle⟩
      · obtain rfl : t' = t := List.mem_singleton.1 h1
        refine ⟨e_t, aget_dset_self _ _ _, ?_, es, hesv, ?_⟩
        · intro d hd
          have hdmem : d ∈ schedule.map Prod.fst := by
            rcases hdep [] t' rest rfl d hd with h2 | h2
            · exact h2
            · simp at h2
          obtain ⟨ed, hed⟩ := Option.isSome_iff_exists.1
            ((aget_isSome_iff_mem schedule d).2 hdmem)
          have hdne : d ≠ t'.id := fun hh => htid_fresh (hh ▸ hdmem)
          refine ⟨ed, by rw [aget_dset_ne _ _ _ _ hdne]; exact hed, ?_⟩
          calc ed.finish ≤ est0 := hbound d hd ed hed
            _ ≤ max est0 es := le_max_left _ _
            _ ≤ st := hst_ge
        · exact le_trans (le_trans (le_max_right _ _) hst_ge) (le_refl _)
    have hfresh' : ∀ x ∈ rest, x.id ∉ (dset schedule t.id e_t).map Prod.fst := by
      intro x hx
      rw [dset_eq_append_of_not_mem _ _ _ htid_fresh, List.map_append]
      simp only [List.mem_append]
      push_neg
      refine ⟨fun hh => hfresh x (List.mem_cons_of_mem _ hx) hh, ?_⟩
      simp only [List.map_cons, List.nodup_cons] at hnd
      have : x.id ≠ t.id := by
        intro hh
        exact hnd.1 (hh ▸ List.mem_map_of_mem Task.id hx)
      simpa using this
    have hdep' : ∀ l1 x l2, rest = l1 ++ x :: l2 → ∀ d ∈ x.dependencies,
        d ∈ (dset schedule t.id e_t).map Prod.fst ∨ d ∈ l1.map Task.id := by
      intro l1 x l2 hsplit d hd
      rcases hdep (t :: l1) x l2 (by rw [hsplit]; rfl) d hd with h2 | h2
      · refine Or.inl ?_
        rw [dset_eq_append_of_not_mem _ _ _ htid_fresh, List.map_append]
        exact List.mem_append.2 (Or.inl h2)
      · simp only [List.map_cons, List.mem_cons] at h2
        rcases h2 with h3 | h3
        · refine Or.inl ?_
          rw [dset_eq_append_of_not_mem _ _ _ htid_fresh, List.map_append]
          exact List.mem_append.2 (Or.inr (by simp [h3]))
        · exact Or.inr h3
    have hnd' : (rest.map Task.id).Nodup := by
      simp only [List.map_cons, List.nodup_cons] at hnd
      exact hnd.2
    cases pool with
    | true =>
      rw [if_pos rfl] at hlev
      have := ih (done ++ [t]) _ _ _ s hlev hnd' hfresh' hdep' hprec'
      simpa using this
    | false =>
      rw [if_neg (by simp)] at hlev
      have := ih (done ++ [t]) _ _ _ s hlev hnd' hfresh' hdep' hprec'
      simpa using this

/-- Tasks are processed in ascending early-start order, so when every
dependency has a strictly smaller baseline ES than its dependent, every
dependency's task occurs strictly earlier in the processing order. -/
theorem sorted_deps_before (tasks : List Task) (info : List (String × CpmRec))
    (ord : List (Task × (ℚ × Int × String)))
    (_hnd : UniqueIds tasks) (hclosed : DepsClosed tasks)
    (hlt : ∀ x ∈ tasks, ∀ d ∈ x.dependencies, ∀ td ∈ tasks, td.id = d →
      ∀ ex ed, (aget info x.id).bind CpmRec.es = some ex →
        (aget info td.id).bind CpmRec.es = some ed → ed < ex)
    (hord : levelOrder tasks info = some ord) :
    ∀ l1 x l2, ord.map Prod.fst = l1 ++ x :: l2 → ∀ d ∈ x.dependencies,
      d ∈ l1.map Task.id := by
  obtain ⟨hperm, hsort, hkeys⟩ := levelOrder_some tasks info ord hord
  intro l1 x l2 hsplit d hd
  obtain ⟨P1, Pr, hP, hP1, hPr⟩ := List.map_eq_append_iff.1 hsplit
  obtain ⟨px, P2, hPr2, hpx, hP2⟩ := List.map_eq_cons_iff.1 hPr
  have hpx_mem : px ∈ ord := by
    rw [hP, hPr2]
    exact List.mem_append_right _ (List.mem_cons_self _ _)
  obtain ⟨esx, hesx, hsx⟩ := hkeys px hpx_mem
  have hesx' : (aget info x.id).bind CpmRec.es = some esx := by
    rw [← hpx]
    exact hesx
  have hx_tasks : x ∈ tasks := by
    refine hperm.mem_iff.1 ?_
    rw [hsplit]
    exact List.mem_append_right _ (List.mem_cons_self _ _)
  have hd_ids : d ∈ tasks.map Task.id := hclosed x hx_tasks d hd
  obtain ⟨td, htd, htdid⟩ := List.mem_map.1 hd_ids
  have htd_ord : td ∈ ord.map Prod.fst := hperm.mem_iff.2 htd
  rw [hsplit] at htd_ord
  rcases List.mem_append.1 htd_ord with h1 | h1
  · rw [← htdid]
    exact List.mem_map_of_mem _ h1
  · exfalso
    rcases List.mem_cons.1 h1 with h2 | h2
    · have hesd'' : (aget info td.id).bind CpmRec.es = some esx := by
        rw [h2]
        exact hesx'
      exact lt_irrefl esx (hlt x hx_tasks d hd td htd htdid esx esx hesx' hesd'')
    · obtain ⟨ptd, hptd, hptdx⟩ := List.mem_map.1 (hP2 ▸ h2)
      obtain ⟨esd, hesd, hsnD⟩ := hkeys ptd (by
        rw [hP, hPr2]
        exact List.mem_append_right _ (List.mem_cons_of_mem _ hptd))
      have hesd' : (aget info td.id).bind CpmRec.es = some esd := by
        rw [← hptdx]
        exact hesd
      have hrel : taskKeyLe px ptd := by
        rw [hP, hPr2] at hsort
        have hpw := (List.pairwise_append.1 hsort).2.1
        exact (List.pairwise_cons.1 hpw).1 ptd hptd
      have hle : esx ≤ esd := by
        have h1le := keyLe_fst_le hrel
        rw [hsx, hsnD] at h1le
        exact h1le
      have hdlt : esd < esx := hlt x hx_tasks d hd td htd htdid esx esd hesx' hesd'
      exact absurd hdlt (not_lt.2 hle)

/-- With a computed baseline and strictly positive durations, the leveled
schedule respects dependency precedence and the baseline early starts. -/
theorem level_precedence_spec (tasks : List Task) (hnd : UniqueIds tasks)
    (hclosed : DepsClosed tasks) (f : String → Nat) (hf : RankedBy tasks f)
    (hpos : ∀ t ∈ tasks, 0 < t.duration_hours.getD 0)
    (pool : Bool) (caps : List (String × Int)) :
    ∃ info s, compute_cpm_baseline tasks = some info ∧
      level_resources tasks info pool caps = some s ∧
      ∀ t ∈ tasks, ∃ e, aget s t.id = some e ∧
        (∀ d ∈ t.dependencies, ∃ ed, aget s d = some ed ∧ ed.finish ≤ e.start) ∧
        (∃ esv, (aget info t.id).bind CpmRec.es = some esv ∧ esv ≤ e.start) := by
  obtain ⟨info, hcomp, hinfokeys, hfacts⟩ := compute_cpm_spec_aux tasks hnd hclosed f hf
  have hesS : ∀ t ∈ tasks, ((aget info t.id).bind CpmRec.es).isSome := by
    intro t ht
    obtain ⟨r, hr, _, ⟨esv, hes, _, _, _⟩, _⟩ := hfacts t ht
    simp [hr, hes]
  have hefS : ∀ t ∈ tasks, ∀ d ∈ t.dependencies, ((aget info d).bind CpmRec.ef).isSome := by
    intro t ht d hd
    obtain ⟨r, hr, _, ⟨esv, _, _, _, hsome⟩, _⟩ := hfacts t ht
    exact hsome d hd
  have hlt : ∀ x ∈ tasks, ∀ d ∈ x.dependencies, ∀ td ∈ tasks, td.id = d →
      ∀ ex ed, (aget info x.id).bind CpmRec.es = some ex →
        (aget info td.id).bind CpmRec.es = some ed → ed < ex := by
    intro x hx d hd td htd htdid ex ed hex hed
    obtain ⟨rx, hrx, _, ⟨esvx, hesx, _, hfold, _⟩, _⟩ := hfacts x hx
    obtain ⟨rd, hrd, _, ⟨esvd, hesd, hefd, _, _⟩, _⟩ := hfacts td htd
    rw [hrx, Option.some_bind, hesx] at hex
    obtain rfl : esvx = ex := Option.some.inj hex
    rw [hrd, Option.some_bind, hesd] at hed
    obtain rfl : esvd = ed := Option.some.inj hed
    have hefval : ((aget info d).bind CpmRec.ef).getD 0 =
        esvd + td.duration_hours.getD 0 := by
      rw [← htdid, hrd, Option.some_bind, hefd]
      rfl
    have hgef : esvd + td.duration_hours.getD 0 ≤ esvx := by
      rw [hfold, ← hefval]
      exact foldl_maxg_mem_le (fun d' => ((aget info d').bind CpmRec.ef).getD 0)
        x.dependencies 0 hd
    have := hpos td htd
    linarith
  obtain ⟨pairs, hpairs⟩ := mapM_isSome
    (fun t => ((aget info t.id).bind CpmRec.es).map
      (fun es => (t, (es, t.planned_day, t.name)))) tasks
    (fun t ht => by
      obtain ⟨esv, h⟩ := Option.isSome_iff_exists.1 (hesS t ht)
      simp [h])
  have hord : levelOrder tasks info = some (List.insertionSort taskKeyLe pairs) := by
    unfold levelOrder
    rw [hpairs]
    rfl
  obtain ⟨hperm, hsort, hkeysOrd⟩ := levelOrder_some tasks info _ hord
  obtain ⟨s, hloop, _, _⟩ := levelLoop_total info pool caps
    ((List.insertionSort taskKeyLe pairs).map Prod.fst) [] [] []
    (fun t ht => hesS t (hperm.mem_iff.1 ht))
    (fun t ht d hd => Or.inr (hefS t (hperm.mem_iff.1 ht) d hd))
  have hbefore := sorted_deps_before tasks info _ hnd hclosed hlt hord
  have hprec := levelLoop_precedence info pool caps
    ((List.insertionSort taskKeyLe pairs).map Prod.fst) [] [] [] [] s hloop
    (by
      have h1 : (((List.insertionSort taskKeyLe pairs).map Prod.fst).map Task.id).Perm
          (tasks.map Task.id) := hperm.map Task.id
      exact h1.nodup_iff.2 hnd)
    (by simp [aget])
    (fun l1 t l2 hsplit d hd => Or.inr (hbefore l1 t l2 hsplit d hd))
    (fun t ht => absurd ht (List.not_mem_nil t))
  refine ⟨info, s, hcomp, ?_, ?_⟩
  · unfold level_resources
    simp only [hord, Option.bind_eq_bind, Option.some_bind]
    exact hloop
  · intro t ht
    refine hprec t ?_
    rw [List.nil_append]
    exact hperm.mem_iff.2 ht

/-! ### One advance step of the pooled slot search -/

/-- Unfolding `findStart` when the while-guard holds. -/
theorem findStart_succ (scheduled : List CatRec) (cat : String) (cap : Int)
    (dur : ℚ) (fuel : Nat) (start : ℚ)
    (hg : 0 < dur ∧ cap ≤ (cat_active_at scheduled cat start : Int)) :
    findStart scheduled cat cap dur (fuel + 1) start =
      match (scheduled.filter (fun r => decide (r.cat = cat ∧ start < r.finish))).map
          CatRec.finish with
      | [] => findStart scheduled cat cap dur fuel start
      | f :: fs => findStart scheduled cat cap dur fuel (fs.foldl (fun a b => min a b) f) := by
  conv_lhs => rw [findStart]
  rw [if_pos hg]

/-- When the guard holds and at least one same-category interval is strictly
active, the loop advances `start` strictly, to an existing finish time. -/
theorem findStart_advance (scheduled : List CatRec) (cat : String) (cap : Int)
    (dur : ℚ) (fuel : Nat) (start : ℚ) (hcap : 1 ≤ cap) (hdur : 0 < dur)
    (hact : cap ≤ (cat_active_at scheduled cat start : Int)) :
    ∃ nxt, start < nxt ∧ (∃ r ∈ scheduled, r.cat = cat ∧ nxt = r.finish) ∧
      findStart scheduled cat cap dur (fuel + 1) start =
        findStart scheduled cat cap dur fuel nxt := by
  have hpos : 0 < cat_active_at scheduled cat start := by
    have h1 : (1 : Int) ≤ (cat_active_at scheduled cat start : Int) := le_trans hcap hact
    exact_mod_cast lt_of_lt_of_le zero_lt_one h1
  obtain ⟨r, hrmem, hcat, _, hfin⟩ :
      ∃ r ∈ scheduled, r.cat = cat ∧ r.start < start ∧ start < r.finish := by
    unfold cat_active_at at hpos
    obtain ⟨r, hr⟩ := List.exists_mem_of_ne_nil _ (List.ne_nil_of_length_pos hpos)
    have h1 := List.mem_of_mem_filter hr
    have h2 := List.of_mem_filter hr
    simp only [decide_eq_true_eq] at h2
    exact ⟨r, h1, h2.1, h2.2.1, h2.2.2⟩
  have hrf : r ∈ scheduled.filter (fun r => decide (r.cat = cat ∧ start < r.finish)) :=
    List.mem_filter.2 ⟨hrmem, by simp [hcat, hfin]⟩
  cases hm : (scheduled.filter (fun r => decide (r.cat = cat ∧ start < r.finish))).map
      CatRec.finish with
  | nil =>
    exfalso
    have hmem : r.finish ∈ (scheduled.filter
        (fun r => decide (r.cat = cat ∧ start < r.finish))).map CatRec.finish :=
      List.mem_map_of_mem _ hrf
    rw [hm] at hmem
    exact (List.not_mem_nil _) hmem
  | cons f fs =>
    have hmin_mem : fs.foldl (fun a b => min a b) f ∈ (scheduled.filter
        (fun r => decide (r.cat = cat ∧ start < r.finish))).map CatRec.finish := by
      rw [hm]
      exact foldl_min_mem f fs
    obtain ⟨r0, hr0, hfin0⟩ := List.mem_map.1 hmin_mem
    have hcond0 := List.of_mem_filter hr0
    simp only [decide_eq_true_eq] at hcond0
    refine ⟨fs.foldl (fun a b => min a b) f, ?_,
      ⟨r0, List.mem_of_mem_filter hr0, hcond0.1, hfin0.symm⟩, ?_⟩
    · rw [← hfin0]
      exact hcond0.2
    · rw [findStart_succ scheduled cat cap dur fuel start ⟨hdur, hact⟩, hm]

/-! ### Concrete scenarios -/

/-- Shorthand constructor for concrete test tasks. -/
def mkTask (id name : String) (pd : Int) (dur : Option ℚ) (code cat : Option String)
    (deps : List String) : Task :=
  ⟨id, name, pd, dur, code, cat, none, none, deps⟩

/-- C1 scenario: three duration-2 tasks of category "2", all ES 0, capacity 2. -/
def c1Tasks : List Task :=
  [mkTask "t1" "a" 1 (some 2) none (some "2") [],
   mkTask "t2" "b" 2 (some 2) none (some "2") [],
   mkTask "t3" "c" 3 (some 2) none (some "2") []]

/-- The full pooled-mode pipeline on the C1 scenario. -/
def c1Run : Option (List (String × Entry)) :=
  (compute_cpm_baseline c1Tasks).bind (fun b => level_resources c1Tasks b true [("2", 2)])

/-- C2 scenario: a two-task dependency cycle. -/
def cycTasks : List Task :=
  [mkTask "A" "A" 1 (some 1) none none ["B"],
   mkTask "B" "B" 1 (some 1) none none ["A"]]

/-- C3 scenario: a task whose dependency id is absent from the list. -/
def missTasks : List Task := [mkTask "A" "A" 1 (some 1) none none ["X"]]

/-- C3 baseline covering the missing dependency (as an upstream unfiltered
run would have produced). -/
def c3Base : List (String × CpmRec) :=
  [("A", ⟨1, some 0, some 1, none, none⟩), ("X", ⟨2, some 0, some 2, none, none⟩)]

/-- C4 counterexample scenario: a zero-duration task `d` pushed to time 5 by
its exclusive crew while its dependent `t` starts at 0. -/
def c4Tasks : List Task :=
  [mkTask "z" "a" 1 (some 5) (some "C1") none [],
   mkTask "t" "b" 2 (some 1) none none ["d"],
   mkTask "d" "c" 3 (some 0) (some "C1") none []]

/-- The exact-mode pipeline on the C4 counterexample scenario. -/
def c4Run : Option (List (String × Entry)) :=
  (compute_cpm_baseline c4Tasks).bind (fun b => level_resources c4Tasks b false [])

/-- C4 witness scenario: strictly positive durations, one dependency. -/
def c4wTasks : List Task :=
  [mkTask "B" "B" 1 (some 1) none none [],
   mkTask "A" "A" 2 (some 2) none none ["B"]]

/-- C5 scenario: two independent tasks sharing crew code "C1". -/
def c5Tasks : List Task :=
  [mkTask "a" "A" 1 (some 4) (some "C1") none [],
   mkTask "b" "B" 2 (some 3) (some "C1") none []]

/-- The CPM baseline of the C5 scenario. -/
def c5Base : List (String × CpmRec) := (compute_cpm_baseline c5Tasks).getD []

/-- The exact-mode schedule of the C5 scenario. -/
def c5Sched : List (String × Entry) := (level_resources c5Tasks c5Base false []).getD []

/-- C5 counterexample scenario: two tasks with the literal crew code
"UNSPEC" and an interposed free task. -/
def c5cTasks : List Task :=
  [mkTask "x1" "a" 1 (some 10) (some "UNSPEC") none [],
   mkTask "f" "b" 2 (some 1) none none [],
   mkTask "x2" "c" 3 (some 5) (some "UNSPEC") none []]

/-- The exact-mode pipeline on the C5 counterexample scenario. -/
def c5cRun : Option (List (String × Entry)) :=
  (compute_cpm_baseline c5cTasks).bind (fun b => level_resources c5cTasks b false [])

/-- C6 witness scenario: `A` depends on `B`. -/
def c6Tasks : List Task :=
  [mkTask "A" "A" 1 (some 1) none none ["B"],
   mkTask "B" "B" 1 (some 1) none none []]

/-- C7 witness scenario: `A` depends on `B`, both with positive durations. -/
def c7Tasks : List Task :=
  [mkTask "B" "B" 1 (some 2) none none [],
   mkTask "A" "A" 1 (some 3) none none ["B"]]

/-- C8 witness: two category-"2" intervals `[0, 2)`. -/
def c8Sched : List CatRec := [⟨"2", 0, 2⟩, ⟨"2", 0, 2⟩]

/-- C8 witness scenario: three pooled category-"2" tasks. -/
def c8Tasks : List Task :=
  [mkTask "p1" "a" 1 (some 2) none (some "2") [],
   mkTask "p2" "b" 2 (some 2) none (some "2") [],
   mkTask "p3" "c" 3 (some 2) none (some "2") []]

/-- The CPM baseline of the C8 witness scenario. -/
def c8Base : List (String × CpmRec) := (compute_cpm_baseline c8Tasks).getD []

/-- C9 witness entry: a single entry finishing at hour 8. -/
def c9Entry : Entry := ⟨"Z", none, none, 0, 8, 8, none, none⟩

/-- C9 witness schedule. -/
def c9Sched : List (String × Entry) := [("Z", c9Entry)]

/-- C10 counterexample scenario: two category-only tasks and an interposed
free task. -/
def c10Tasks : List Task :=
  [mkTask "x1" "a" 1 (some 10) none (some "M") [],
   mkTask "f" "b" 2 (some 1) none none [],
   mkTask "x2" "c" 3 (some 5) none (some "M") []]

/-- The exact-mode pipeline on the C10 counterexample scenario. -/
def c10Run : Option (List (String × Entry)) :=
  (compute_cpm_baseline c10Tasks).bind (fun b => level_resources c10Tasks b false [])

/-- C10 witness scenario: two category-only tasks, no free task. -/
def c10wTasks : List Task :=
  [mkTask "x1" "a" 1 (some 10) none (some "M") [],
   mkTask "x2" "c" 2 (some 5) none (some "M") []]

/-- The CPM baseline of the C10 witness scenario. -/
def c10wBase : List (String × CpmRec) := (compute_cpm_baseline c10wTasks).getD []

/-- The exact-mode schedule of the C10 witness scenario. -/
def c10wSched : List (String × Entry) :=
  (level_resources c10wTasks c10wBase false []).getD []

/-! ### The claims -/

unseal Rat.add Rat.sub Rat.mul Rat.inv in
/-- C1: refuted (code bug).  The claim asserts that in pooled mode at most
`max(1, caps[c])` same-category tasks ever strictly overlap, and in the
frozen scenario (three duration-2 category-"2" tasks with ES 0 and capacity
2) two would start at 0 and the third at 2.  Because `cat_active_at` tests
`rec["start"] < timepoint < rec["finish"]` with a strict lower bound, a task
starting exactly at another's start time is never counted, so all three
tasks start at 0: at instant 1 three category-"2" intervals are strictly
active, exceeding the capacity bound of 2. -/
theorem pooled_capacity_violation :
    UniqueIds c1Tasks ∧
    max 1 (dgetI [("2", (2 : Int))] "2") = 2 ∧
    c1Run.isSome ∧
    ((c1Run.getD []).filter (fun p =>
      decide (p.2.crew_category = some "2" ∧ p.2.start < 1 ∧ (1 : ℚ) < p.2.finish))).length
      = 3 := by
  decide

/-- C2: refuted (code bug).  The claim asserts `compute_cpm_baseline`
returns normally on cyclic well-formed inputs.  On a two-task cycle Kahn's
algorithm orders nothing, the `remaining` fallback appends both ids, and the
forward pass then reads `info[dep]["ef"]` for a dependency with no `ef` yet:
a `KeyError` in the source, `none` in the embedding. -/
theorem cpm_baseline_cycle_error :
    UniqueIds cycTasks ∧ DepsClosed cycTasks ∧
    (∀ t ∈ cycTasks, t.id ∉ t.dependencies) ∧
    topological_order cycTasks = ["A", "B"] ∧
    compute_cpm_baseline cycTasks = none := by
  decide

/-- C3 (corrected): `compute_cpm_baseline` itself raises on a missing
dependency id (see the counterexample), so the claimed end-to-end totality
fails; what holds is the fallback at the `level_resources` layer: with any
baseline providing an ES for each listed task and an EF for each referenced
dependency (present in the list or not), leveling returns normally with an
entry for every listed task. -/
theorem level_resources_fallback_total (tasks : List Task)
    (base : List (String × CpmRec)) (pool : Bool) (caps : List (String × Int))
    (hes : ∀ t ∈ tasks, ((aget base t.id).bind CpmRec.es).isSome)
    (hef : ∀ t ∈ tasks, ∀ d ∈ t.dependencies, ((aget base d).bind CpmRec.ef).isSome) :
    ∃ s, level_resources tasks base pool caps = some s ∧
      ∀ t ∈ tasks, (aget s t.id).isSome :=
  level_resources_total tasks base pool caps hes hef

/-- C3 witness: `missTasks` references the missing id "X"; with a baseline
covering "X", exact-mode leveling succeeds and schedules task "A". -/
theorem level_resources_fallback_total_witness :
    (∃ t ∈ missTasks, ∃ d ∈ t.dependencies, d ∉ missTasks.map Task.id) ∧
    ∃ s, level_resources missTasks c3Base false [] = some s ∧
      ∀ t ∈ missTasks, (aget s t.id).isSome :=
  ⟨by decide, level_resources_fallback_total missTasks c3Base false []
    (by decide) (by decide)⟩

/-- C3 counterexample: the claim's first step already fails — on a task
list with a missing dependency id, `compute_cpm_baseline` reads
`info[d]["ef"]` for an id absent from `info`, a `KeyError`. -/
theorem missing_dep_compute_error :
    (∃ t ∈ missTasks, ∃ d ∈ t.dependencies, d ∉ missTasks.map Task.id) ∧
    compute_cpm_baseline missTasks = none := by
  decide

/-- C4 (corrected): with unique ids, in-list acyclic dependencies (a rank
function) and STRICTLY positive durations, both pipeline stages succeed and
the schedule honors precedence: every task starts no earlier than each
dependency's finish and no earlier than its own baseline ES.  (With merely
non-negative durations the claim fails, see the counterexample.) -/
theorem level_schedule_respects_precedence (tasks : List Task) (hnd : UniqueIds tasks)
    (hclosed : DepsClosed tasks) (f : String → Nat) (hf : RankedBy tasks f)
    (hpos : ∀ t ∈ tasks, 0 < t.duration_hours.getD 0)
    (pool : Bool) (caps : List (String × Int)) :
    ∃ info s, compute_cpm_baseline tasks = some info ∧
      level_resources tasks info pool caps = some s ∧
      ∀ t ∈ tasks, ∃ e, aget s t.id = some e ∧
        (∀ d ∈ t.dependencies, ∃ ed, aget s d = some ed ∧ ed.finish ≤ e.start) ∧
        (∃ esv, (aget info t.id).bind CpmRec.es = some esv ∧ esv ≤ e.start) :=
  level_precedence_spec tasks hnd hclosed f hf hpos pool caps

/-- C4 witness: the amended precedence theorem at a concrete two-task
chain with positive durations, in exact mode. -/
theorem level_schedule_respects_precedence_witness :
    ∃ info s, compute_cpm_baseline c4wTasks = some info ∧
      level_resources c4wTasks info false [] = some s ∧
      ∀ t ∈ c4wTasks, ∃ e, aget s t.id = some e ∧
        (∀ d ∈ t.dependencies, ∃ ed, aget s d = some ed ∧ ed.finish ≤ e.start) ∧
        (∃ esv, (aget info t.id).bind CpmRec.es = some esv ∧ esv ≤ e.start) :=
  level_schedule_respects_precedence c4wTasks (by decide) (by decide)
    (fun v => if v = "A" then 1 else 0) (by decide) (by decide) false []

unseal Rat.add Rat.sub Rat.mul Rat.inv in
/-- C4 counterexample: durations merely non-negative.  In `c4Tasks` the
zero-duration dependency "d" is pushed to start 5 by its exclusive crew
"C1", after its dependent "t" was already scheduled at start 0 (both have
ES 0 and "t" precedes "d" in the planned-day tie-break), so
`schedule["t"].start = 0 < 5 = schedule["d"].finish`. -/
theorem precedence_zero_duration_counterexample :
    UniqueIds c4Tasks ∧ DepsClosed c4Tasks ∧
    RankedBy c4Tasks (fun v => if v = "t" then 1 else 0) ∧
    (∀ t ∈ c4Tasks, 0 ≤ t.duration_hours.getD 0) ∧
    (∃ t ∈ c4Tasks, t.id = "t" ∧ "d" ∈ t.dependencies) ∧
    c4Run.isSome ∧
    ((aget (c4Run.getD []) "t").map Entry.start).getD 99 = 0 ∧
    ((aget (c4Run.getD []) "d").map Entry.finish).getD 0 = 5 := by
  decide

/-- C5 (corrected): in exact mode, tasks sharing the same non-null crew
code `c` get pairwise disjoint `[start, finish)` intervals PROVIDED
`c ≠ "UNSPEC"`: the sentinel code "UNSPEC" is shared with every code-less
task (including resource-free ones, whose post-update clobbers the busy
time — see the counterexample with the literal code "UNSPEC"). -/
theorem exact_mode_code_serialized (tasks : List Task) (base : List (String × CpmRec))
    (caps : List (String × Int)) (c : String) (s : List (String × Entry))
    (hdur : ∀ t ∈ tasks, 0 ≤ t.duration_hours.getD 0)
    (hcne : c ≠ "UNSPEC")
    (hs : level_resources tasks base false caps = some s) :
    ExactDisj c s := by
  refine exact_no_overlap tasks base caps c s hdur ?_ hs
  intro t ht hcode hfree
  rw [hfree.2] at hcode
  exact hcne hcode.symm

unseal Rat.add Rat.sub Rat.mul Rat.inv in
/-- C5 witness: the frozen scenario — two independent "C1" tasks of
durations 4 and 3 serialize to `[0, 4)` and `[4, 7)`, a busy span of 7. -/
theorem exact_mode_code_serialized_witness :
    ExactDisj "C1" c5Sched ∧
    ((aget c5Sched "a").map Entry.start).getD 99 = 0 ∧
    ((aget c5Sched "a").map Entry.finish).getD 99 = 4 ∧
    ((aget c5Sched "b").map Entry.start).getD 99 = 4 ∧
    ((aget c5Sched "b").map Entry.finish).getD 99 = 7 :=
  ⟨exact_mode_code_serialized c5Tasks c5Base [] "C1" c5Sched
    (by decide) (by decide) (by decide), by decide, by decide, by decide, by decide⟩

unseal Rat.add Rat.sub Rat.mul Rat.inv in
/-- C5 counterexample: two tasks carry the literal non-null crew code
"UNSPEC"; a free task's post-update clobbers `code_busy_until["UNSPEC"]`,
after which both "UNSPEC" intervals (`[0,10)` and `[1,6)`) strictly contain
instant 2 — they overlap despite sharing a non-null code. -/
theorem unspec_code_overlap :
    UniqueIds c5cTasks ∧
    RankedBy c5cTasks (fun _ => 0) ∧
    (∀ t ∈ c5cTasks, 0 ≤ t.duration_hours.getD 0) ∧
    c5cRun.isSome ∧
    ((c5cRun.getD []).filter (fun p =>
      decide (p.2.crew_code = some "UNSPEC" ∧ p.2.start < 2 ∧ (2 : ℚ) < p.2.finish))).length
      = 2 := by
  decide

/-- C6: confirmed.  With unique ids and in-list dependencies,
`topological_order` returns a permutation of the task ids (each id exactly
once), and under any rank function witnessing acyclicity every dependency
appears strictly before its dependent in the returned order. -/
theorem topological_order_spec (tasks : List Task) (hnd : UniqueIds tasks)
    (hclosed : DepsClosed tasks) :
    (topological_order tasks).Perm (tasks.map Task.id) ∧
    ∀ f, RankedBy tasks f → ∀ t ∈ tasks, ∀ d ∈ t.dependencies,
      (topological_order tasks).indexOf d < (topological_order tasks).indexOf t.id := by
  refine ⟨topological_order_perm tasks hnd, ?_⟩
  intro f hf t ht d hd
  have hsub := topo_acyclic_sublist tasks hnd hclosed f hf t ht d hd
  have hndo : (topological_order tasks).Nodup :=
    ((topological_order_perm tasks hnd).nodup_iff).2 hnd
  exact sublist_pair_indexOf hndo hsub

/-- C6 witness: on the chain `A` depends on `B`, the order is a permutation
of the ids and "B" is placed before "A". -/
theorem topological_order_spec_witness :
    (topological_order c6Tasks).Perm (c6Tasks.map Task.id) ∧
    (topological_order c6Tasks).indexOf "B" < (topological_order c6Tasks).indexOf "A" := by
  have h := topological_order_spec c6Tasks (by decide) (by decide)
  refine ⟨h.1, ?_⟩
  exact h.2 (fun v => if v = "A" then 1 else 0) (by decide)
    (mkTask "A" "A" 1 (some 1) none none ["B"]) (by decide) "B" (by decide)

/-- C7: confirmed.  On unique-id, dependency-closed, acyclic task lists
with non-negative (or unknown, counting 0) durations, the baseline
computation succeeds and for every task: ES is the maximum dependency EF
(0 when it has none), EF = ES + duration, LS = LF − duration, hence
ES ≤ EF and LS ≤ LF. -/
theorem compute_cpm_baseline_spec (tasks : List Task) (hnd : UniqueIds tasks)
    (hclosed : DepsClosed tasks) (f : String → Nat) (hf : RankedBy tasks f)
    (hdur : ∀ t ∈ tasks, 0 ≤ t.duration_hours.getD 0) :
    ∃ info, compute_cpm_baseline tasks = some info ∧
      ∀ t ∈ tasks, ∃ r : CpmRec, aget info t.id = some r ∧
        r.duration = t.duration_hours.getD 0 ∧
        ∃ esv lfv, r.es = some esv ∧ r.ef = some (esv + r.duration) ∧
          r.lf = some lfv ∧ r.ls = some (lfv - r.duration) ∧
          (∀ d ∈ t.dependencies, ((aget info d).bind CpmRec.ef).getD 0 ≤ esv) ∧
          (t.dependencies = [] → esv = 0) ∧
          (esv = 0 ∨ ∃ d ∈ t.dependencies, (aget info d).bind CpmRec.ef = some esv) ∧
          esv ≤ esv + r.duration ∧ lfv - r.duration ≤ lfv := by
  obtain ⟨info, hcomp, _, hfacts⟩ := compute_cpm_spec_aux tasks hnd hclosed f hf
  refine ⟨info, hcomp, ?_⟩
  intro t ht
  obtain ⟨r, hr, hdr, ⟨esv, hes, hef, hfold, hsome⟩, lfv, hlf, hls⟩ := hfacts t ht
  have hdurt := hdur t ht
  refine ⟨r, hr, hdr, esv, lfv, hes, by rw [hdr]; exact hef, hlf, hls,
    ?_, ?_, ?_, ?_, ?_⟩
  · intro d hd
    rw [hfold]
    exact foldl_maxg_mem_le (fun d => ((aget info d).bind CpmRec.ef).getD 0)
      t.dependencies 0 hd
  · intro hnil
    rw [hfold, hnil]
    rfl
  · rcases foldl_maxg_eq_init_or_mem (fun d => ((aget info d).bind CpmRec.ef).getD 0)
        t.dependencies 0 with h | ⟨d, hd, hdd⟩
    · exact Or.inl (hfold.trans h)
    · refine Or.inr ⟨d, hd, ?_⟩
      obtain ⟨efv, hefv⟩ := Option.isSome_iff_exists.1 (hsome d hd)
      rw [hefv, hfold, hdd, hefv]
      rfl
  · rw [hdr]
    linarith
  · rw [hdr]
    linarith

/-- C7 witness: the baseline equations at a concrete two-task chain. -/
theorem compute_cpm_baseline_spec_witness :
    ∃ info, compute_cpm_baseline c7Tasks = some info ∧
      ∀ t ∈ c7Tasks, ∃ r : CpmRec, aget info t.id = some r ∧
        r.duration = t.duration_hours.getD 0 ∧
        ∃ esv lfv, r.es = some esv ∧ r.ef = some (esv + r.duration) ∧
          r.lf = some lfv ∧ r.ls = some (lfv - r.duration) ∧
          (∀ d ∈ t.dependencies, ((aget info d).bind CpmRec.ef).getD 0 ≤ esv) ∧
          (t.dependencies = [] → esv = 0) ∧
          (esv = 0 ∨ ∃ d ∈ t.dependencies, (aget info d).bind CpmRec.ef = some esv) ∧
          esv ≤ esv + r.duration ∧ lfv - r.duration ≤ lfv :=
  compute_cpm_baseline_spec c7Tasks (by decide) (by decide)
    (fun v => if v = "A" then 1 else 0) (by decide) (by decide)

/-- C8: confirmed.  In pooled mode the slot search always terminates: while
the candidate start still conflicts with at least `cap ≥ 1` strictly-active
same-category intervals, it strictly advances to an existing finish time;
run with fuel `|scheduled| + 1` (as `levelLoop` does) it lands on a
conflict-free start at or after the request; and pooled `level_resources`
is total whenever the baseline provides the needed ES/EF values. -/
theorem pooled_search_terminates :
    (∀ (scheduled : List CatRec) (cat : String) (cap : Int) (dur start : ℚ) (fuel : Nat),
      1 ≤ cap → 0 < dur → cap ≤ (cat_active_at scheduled cat start : Int) →
      ∃ nxt, start < nxt ∧ (∃ r ∈ scheduled, r.cat = cat ∧ nxt = r.finish) ∧
        findStart scheduled cat cap dur (fuel + 1) start =
          findStart scheduled cat cap dur fuel nxt) ∧
    (∀ (scheduled : List CatRec) (cat : String) (cap : Int) (dur start : ℚ),
      1 ≤ cap →
      start ≤ findStart scheduled cat cap dur (scheduled.length + 1) start ∧
      ¬(0 < dur ∧ cap ≤ (cat_active_at scheduled cat
          (findStart scheduled cat cap dur (scheduled.length + 1) start) : Int))) ∧
    (∀ (tasks : List Task) (base : List (String × CpmRec)) (caps : List (String × Int)),
      (∀ t ∈ tasks, ((aget base t.id).bind CpmRec.es).isSome) →
      (∀ t ∈ tasks, ∀ d ∈ t.dependencies, ((aget base d).bind CpmRec.ef).isSome) →
      ∃ s, level_resources tasks base true caps = some s ∧
        ∀ t ∈ tasks, (aget s t.id).isSome) := by
  refine ⟨?_, ?_, ?_⟩
  · intro scheduled cat cap dur start fuel hcap hdur hact
    exact findStart_advance scheduled cat cap dur fuel start hcap hdur hact
  · intro scheduled cat cap dur start hcap
    refine ⟨findStart_ge scheduled cat cap dur _ start, ?_⟩
    exact findStart_no_conflict scheduled cat cap dur hcap _ start
      (Nat.lt_succ_of_le (List.length_filter_le _ _))
  · intro tasks base caps hes hef
    exact level_resources_total tasks base true caps hes hef

unseal Rat.add Rat.sub Rat.mul Rat.inv in
/-- C8 witness: at two active `[0, 2)` category-"2" intervals with capacity
2, the search started at 1 ends conflict-free; and pooled leveling of a
concrete three-task scenario returns a schedule covering every task. -/
theorem pooled_search_terminates_witness :
    ((1 : ℚ) ≤ findStart c8Sched "2" 2 2 (c8Sched.length + 1) 1 ∧
      ¬(0 < (2 : ℚ) ∧ (2 : Int) ≤ (cat_active_at c8Sched "2"
          (findStart c8Sched "2" 2 2 (c8Sched.length + 1) 1) : Int))) ∧
    (∃ s, level_resources c8Tasks c8Base true [("2", 2)] = some s ∧
      ∀ t ∈ c8Tasks, (aget s t.id).isSome) :=
  ⟨pooled_search_terminates.2.1 c8Sched "2" 2 2 1 (by decide),
   pooled_search_terminates.2.2 c8Tasks c8Base [("2", 2)] (by decide) (by decide)⟩

/-- C9: confirmed.  The metric is 0 on the empty schedule, and otherwise
the maximum finish over all entries divided by `max 1 hours_per_day`; the
divisor is always strictly positive, also for zero or negative
`hours_per_day`. -/
theorem compute_project_metrics_spec (schedule : List (String × Entry))
    (hours_per_day : ℚ) (hne : schedule ≠ []) :
    0 < max 1 hours_per_day ∧
    compute_project_metrics [] hours_per_day = 0 ∧
    ∃ m, (∃ q ∈ schedule, q.2.finish = m) ∧ (∀ q ∈ schedule, q.2.finish ≤ m) ∧
      compute_project_metrics schedule hours_per_day = m / max 1 hours_per_day := by
  refine ⟨lt_of_lt_of_le zero_lt_one (le_max_left _ _), rfl, ?_⟩
  cases schedule with
  | nil => exact absurd rfl hne
  | cons p rest =>
    refine ⟨rest.foldl (fun a q => max a q.2.finish) p.2.finish, ?_, ?_, ?_⟩
    · rcases foldl_maxg_eq_init_or_mem (fun q : String × Entry => q.2.finish)
          rest p.2.finish with h | ⟨x, hx, hmax⟩
      · exact ⟨p, List.mem_cons_self _ _, h.symm⟩
      · exact ⟨x, List.mem_cons_of_mem _ hx, hmax.symm⟩
    · intro q hq
      rcases List.mem_cons.1 hq with h | h
      · rw [h]
        exact foldl_maxg_init_le (fun q : String × Entry => q.2.finish) rest p.2.finish
      · exact foldl_maxg_mem_le (fun q : String × Entry => q.2.finish) rest p.2.finish h
    · rfl

/-- C9 witness: a one-entry schedule with finish 8 and `hours_per_day = 0`
(divisor clamps to 1). -/
theorem compute_project_metrics_spec_witness :
    0 < max 1 (0 : ℚ) ∧
    compute_project_metrics [] (0 : ℚ) = 0 ∧
    ∃ m, (∃ q ∈ c9Sched, q.2.finish = m) ∧ (∀ q ∈ c9Sched, q.2.finish ≤ m) ∧
      compute_project_metrics c9Sched 0 = m / max 1 (0 : ℚ) :=
  compute_project_metrics_spec c9Sched 0 (by decide)

/-- C10 (corrected): in exact mode every code-less task is keyed by the
sentinel "UNSPEC", so category-only tasks are serialized against one
another — PROVIDED no completely resource-free task is in the list: the
post-update runs for free tasks too and clobbers
`code_busy_until["UNSPEC"]` (see the counterexample). -/
theorem category_only_unspec_serialized (tasks : List Task)
    (base : List (String × CpmRec)) (caps : List (String × Int))
    (s : List (String × Entry))
    (hdur : ∀ t ∈ tasks, 0 ≤ t.duration_hours.getD 0)
    (hnofree : ∀ t ∈ tasks, ¬(t.crew_category = none ∧ t.crew_code = none))
    (hs : level_resources tasks base false caps = some s) :
    ExactDisj "UNSPEC" s :=
  exact_no_overlap tasks base caps "UNSPEC" s hdur (fun t ht _ => hnofree t ht) hs

unseal Rat.add Rat.sub Rat.mul Rat.inv in
/-- C10 witness: two category-only tasks (durations 10 and 5) serialize to
`[0, 10)` and `[10, 15)` under the shared "UNSPEC" key. -/
theorem category_only_unspec_serialized_witness :
    ExactDisj "UNSPEC" c10wSched ∧
    ((aget c10wSched "x1").map Entry.start).getD 99 = 0 ∧
    ((aget c10wSched "x1").map Entry.finish).getD 99 = 10 ∧
    ((aget c10wSched "x2").map Entry.start).getD 99 = 10 ∧
    ((aget c10wSched "x2").map Entry.finish).getD 99 = 15 :=
  ⟨category_only_unspec_serialized c10wTasks c10wBase [] c10wSched
    (by decide) (by decide) (by decide), by decide, by decide, by decide, by decide⟩

unseal Rat.add Rat.sub Rat.mul Rat.inv in
/-- C10 counterexample: with a free task between two category-"M" tasks,
the free task's post-update resets `code_busy_until["UNSPEC"]` to 1, so the
two category-only tasks get intervals `[0, 10)` and `[1, 6)` — both
strictly active at instant 2, not serialized, despite positive durations. -/
theorem category_only_clobbered_overlap :
    UniqueIds c10Tasks ∧
    (∀ t ∈ c10Tasks, 0 < t.duration_hours.getD 0) ∧
    c10Run.isSome ∧
    ((c10Run.getD []).filter (fun p =>
      decide (p.2.crew_category = some "M" ∧ p.2.crew_code = none ∧
        p.2.start < 2 ∧ (2 : ℚ) < p.2.finish))).length = 2 := by
  decide

end Scheduling
